import Mathlib

/-!
Verification of the revision-aware structural editor of `docx-editor`
(`src/docx_editor/track_changes.py` and the MCP tool layer in
`src/docx_editor_mcp/`).

The document tree is shallowly embedded: a document is a list of paragraphs,
a paragraph a list of blocks (runs, insertion envelopes, deletion envelopes,
and the transient marker element used by the mixed-state rewriter), a run a
list of text spans.  Text is modelled as `List Char` (character units are code
points).  Node references of the Python DOM are modelled by numeric node
identifiers carried on spans, runs and envelopes; mutation primitives address
nodes by identifier (inputs are expected to carry pairwise distinct
identifiers, mirroring the uniqueness of object identity in the source).

The helper module `xml_editor.py` (text maps, fragment parsing, node
splicing, revision-id allocation) is not part of the sources; those
definitions are modelled from the specification and are marked as such.
-/

set_option linter.unusedVariables false

namespace DocxSpec

/-- Text is a list of code points. -/
abbrev Str := List Char

/-- Leftmost index at which `needle` occurs in `hay` (Python `str.find`),
`none` when the needle is absent.  `listFindSub hay [] = some 0`. -/
def listFindSub (hay needle : Str) : Option Nat :=
  if needle.isPrefixOf hay then some 0
  else
    match hay with
    | [] => none
    | _ :: t => (listFindSub t needle).map (· + 1)

/-- Python `needle in hay`. -/
def containsSub (hay needle : Str) : Bool :=
  (listFindSub hay needle).isSome

/-- All start indices of (possibly overlapping) occurrences of `q` in `hay`,
in increasing order: left-to-right scanning that advances by one character
after each hit. -/
def occIdxs (hay q : Str) : List Nat :=
  (List.range (hay.length + 1)).filter (fun i => q.isPrefixOf (hay.drop i))

/-- Number of (possibly overlapping) occurrences of `q` in `hay`. -/
def occCount (hay q : Str) : Nat :=
  (occIdxs hay q).length

/- ### The document tree -/

/-- A `w:t` text span (or a `w:delText` leaf when it sits inside a deletion
envelope): node id, string value, `xml:space="preserve"` flag. -/
structure Wt where
  nid : Nat
  val : Str
  preserve : Bool
deriving DecidableEq

/-- A `w:r` run: node id, opaque serialized `w:rPr` block, the `w:rsidR` and
`w:rsidDel` run-level attributes, and its text spans. -/
structure Run where
  rid : Nat
  rPr : Option Str
  rsidR : Option Str
  rsidDel : Option Str
  wts : List Wt
deriving DecidableEq

/-- A `w:ins`/`w:del` revision envelope: node id, `w:id`, `w:author`,
`w:date`, and the contained runs (envelopes do not nest). -/
structure Env where
  eid : Nat
  wid : Int
  author : Str
  date : Str
  runs : List Run
deriving DecidableEq

/-- A top-level child of a paragraph. `marker` is the transient `w:_marker`
element used by the mixed-state rewriter. -/
inductive Block where
  | run : Run → Block
  | ins : Env → Block
  | del : Env → Block
  | marker : Block
deriving DecidableEq

abbrev Para := List Block

/-- The document: paragraphs, the DOM editor's next fresh revision id, and
the session author/timestamp stamped on emitted envelopes. -/
structure Doc where
  paras : List Para
  nextId : Nat
  author : Str
  date : Str
deriving DecidableEq

/- ### The text map (modelled from the spec, section 4.1) -/

/-- One character's origin: leaf node id, offset inside the leaf, and
whether the leaf lies inside an insertion envelope. -/
structure Pos where
  wtNid : Nat
  offset : Nat
  insideIns : Bool
deriving DecidableEq

/-- Modelled from the spec: the linear visible-text view of a paragraph with
one `Pos` per character (`build_text_map` of the missing `xml_editor`). -/
structure TextMap where
  text : Str
  positions : List Pos
deriving DecidableEq

def wtChars (ii : Bool) (w : Wt) : List Pos :=
  (List.range w.val.length).map (fun k => ⟨w.nid, k, ii⟩)

def runChars (ii : Bool) (r : Run) : List Pos :=
  (r.wts.map (wtChars ii)).flatten

def runText (r : Run) : Str :=
  (r.wts.map (·.val)).flatten

/-- Visible characters contributed by a block: deletion envelopes are
skipped entirely, insertion envelopes contribute their runs. -/
def blockChars : Block → List Pos
  | .run r => runChars false r
  | .ins e => (e.runs.map (runChars true)).flatten
  | .del _ => []
  | .marker => []

def blockVisText : Block → Str
  | .run r => runText r
  | .ins e => (e.runs.map runText).flatten
  | .del _ => []
  | .marker => []

/-- Modelled from the spec: `build_text_map(paragraph)` traverses the
paragraph in document order, skipping deletion-envelope content. -/
def build_text_map (p : Para) : TextMap :=
  ⟨(p.map blockVisText).flatten, (p.map blockChars).flatten⟩

/-- A located occurrence: the matched slice of positions and the
`spans_context_boundary` flag. -/
structure Match where
  positions : List Pos
  spans : Bool
deriving DecidableEq

/-- Positions within the range disagree on `insideIns`. -/
def spansOf : List Pos → Bool
  | [] => false
  | p :: rest => rest.any (fun q => q.insideIns != p.insideIns)

def matchAt (tm : TextMap) (q : Str) (s : Nat) : Match :=
  let ps := (tm.positions.drop s).take q.length
  ⟨ps, spansOf ps⟩

/-- The error kinds surfaced by the editor. -/
inductive Err where
  | notFound
  | invalidArgument
  | revisionError
deriving DecidableEq

/-- Modelled from the spec: `find_in_text_map(tm, q, nth)` performs plain
left-to-right substring search with 0-based occurrence index; empty queries
are rejected with an invalid-argument error. -/
def find_in_text_map (tm : TextMap) (q : Str) (nth : Nat) :
    Except Err (Option Match) :=
  if q = [] then .error .invalidArgument
  else
    match (occIdxs tm.text q)[nth]? with
    | none => .ok none
    | some s => .ok (some (matchAt tm q s))

/- ### Document-level searches -/

/-- All `w:t` spans of a block in document order (`w:delText` leaves inside
deletion envelopes are a different tag and are not returned). -/
def blockWts : Block → List Wt
  | .run r => r.wts
  | .ins e => (e.runs.map (·.wts)).flatten
  | .del _ => []
  | .marker => []

/-- All `w:t` spans of the document in document order. -/
def docWts (d : Doc) : List Wt :=
  (d.paras.map (fun p => (p.map blockWts).flatten)).flatten

/-- Modelled from the spec: `find_all_nodes(tag="w:t", contains=text)` — the
fast search for text-span leaves whose value contains the query, in document
order. -/
def find_all_nodes (d : Doc) (text : Str) : List Wt :=
  (docWts d).filter (fun w => containsSub w.val text)

/-- `RevisionManager._get_nth_match`: nth `w:t` leaf containing `text`
(0-indexed); raises `TextNotFoundError` when there are not enough. -/
def get_nth_match (d : Doc) (text : Str) (occurrence : Nat) : Except Err Wt :=
  let ms := find_all_nodes d text
  if ms = [] then .error .notFound
  else
    match ms[occurrence]? with
    | none => .error .notFound
    | some w => .ok w

/-- All per-paragraph matches of `q` in document order (used to enumerate
occurrences exactly as `_find_across_boundaries` does). -/
def allParaMatches (d : Doc) (q : Str) : List Match :=
  (d.paras.map (fun p =>
    let tm := build_text_map p
    (occIdxs tm.text q).map (matchAt tm q))).flatten

/-- `RevisionManager._find_across_boundaries`: the nth occurrence of `text`
over all paragraphs' text maps; the text-map search rejects empty queries
(propagated as an invalid-argument error) when any paragraph exists. -/
def find_across_boundaries (d : Doc) (text : Str) (occurrence : Nat) :
    Except Err (Option Match) :=
  if text = [] ∧ d.paras ≠ [] then .error .invalidArgument
  else .ok (allParaMatches d text)[occurrence]?

/-- Total number of per-paragraph occurrences of `q` in the document's
visible text. -/
def totalOcc (d : Doc) (q : Str) : Nat :=
  (d.paras.map (fun p => occCount (build_text_map p).text q)).sum

/-- `RevisionManager.count_matches`: sums the per-paragraph occurrence
counts obtained by repeated text-map searches (the first search of the loop
rejects an empty query). -/
def count_matches (d : Doc) (q : Str) : Except Err Nat :=
  if q = [] ∧ d.paras ≠ [] then .error .invalidArgument
  else .ok (totalOcc d q)

/-- Modelled from the spec: `Document.find_text` — whether the query occurs
in the visible text (first cross-boundary match). -/
def find_text (d : Doc) (q : Str) : Except Err (Option Match) :=
  find_across_boundaries d q 0

/-- Modelled from the spec: the visible-text projection of the whole
document (ignores deletion-envelope content, includes insertion content). -/
def get_visible_text (d : Doc) : Str :=
  (d.paras.map (fun p => (build_text_map p).text)).flatten

/- ### Upward context lookup (parent pointers of the DOM) -/

def runHasWt (nid : Nat) (r : Run) : Bool :=
  r.wts.any (fun w => w.nid == nid)

/-- The run containing the `w:t` with node id `nid` (inside this block),
together with the enclosing `w:ins` ancestor if any. -/
def blockWtCtx (nid : Nat) : Block → Option (Run × Option Env)
  | .run r => if runHasWt nid r then some (r, none) else none
  | .ins e => (e.runs.find? (runHasWt nid)).map (fun r => (r, some e))
  | _ => none

/-- `elem.parentNode` walk up to `w:r` plus `_find_ancestor(run, "w:ins")`
for a `w:t` node reference. -/
def findWtCtx (d : Doc) (nid : Nat) : Option (Run × Option Env) :=
  d.paras.findSome? (fun p => p.findSome? (blockWtCtx nid))

/-- `RevisionManager._get_node_text` for a `w:t` node reference. -/
def getNodeText (d : Doc) (nid : Nat) : Str :=
  match (docWts d).find? (fun w => w.nid == nid) with
  | some w => w.val
  | none => []

/-- The run with node id `rid` (runs inside deletion envelopes are never
the target of a `w:t`-derived reference and are not searched). -/
def findRun (d : Doc) (rid : Nat) : Option Run :=
  d.paras.findSome? (fun p => p.findSome? (fun b =>
    match b with
    | .run r => if r.rid == rid then some r else none
    | .ins e => e.runs.find? (fun r => r.rid == rid)
    | _ => none))

/-- `RevisionManager._get_wt_nodes_in_ancestor`. -/
def get_wt_nodes_in_ancestor : Option Env → List Wt
  | none => []
  | some e => (e.runs.map (·.wts)).flatten

/- ### Mutation primitives (node references are modelled by ids) -/

def runMapWts (f : Wt → Wt) (r : Run) : Run :=
  { r with wts := r.wts.map f }

def blockMapWts (f : Wt → Wt) : Block → Block
  | .run r => .run (runMapWts f r)
  | .ins e => .ins { e with runs := e.runs.map (runMapWts f) }
  | b => b

/-- Apply `f` to every `w:t` span (deletion-envelope leaves are `w:delText`
and are left alone). -/
def mapDocWts (f : Wt → Wt) (d : Doc) : Doc :=
  { d with paras := d.paras.map (fun p => p.map (blockMapWts f)) }

/-- `elem.firstChild.data = v` on the referenced `w:t`. -/
def setWtVal (d : Doc) (nid : Nat) (v : Str) : Doc :=
  mapDocWts (fun w => if w.nid == nid then { w with val := v } else w) d

/-- `_set_xml_space_preserve` on the referenced `w:t`. -/
def set_xml_space_preserve (d : Doc) (nid : Nat) : Doc :=
  mapDocWts (fun w => if w.nid == nid then { w with preserve := true } else w) d

def runRemoveWt (nid : Nat) (r : Run) : Run :=
  { r with wts := r.wts.filter (fun w => w.nid != nid) }

def blockRemoveWt (nid : Nat) : Block → Block
  | .run r => .run (runRemoveWt nid r)
  | .ins e => .ins { e with runs := e.runs.map (runRemoveWt nid) }
  | b => b

/-- `elem.parentNode.removeChild(elem)` for a `w:t` reference. -/
def removeWt (d : Doc) (nid : Nat) : Doc :=
  { d with paras := d.paras.map (fun p => p.map (blockRemoveWt nid)) }

def removeRunInBlocks (rid : Nat) : List Block → List Block
  | [] => []
  | .run r :: bs =>
    if r.rid == rid then removeRunInBlocks rid bs
    else .run r :: removeRunInBlocks rid bs
  | .ins e :: bs =>
    .ins { e with runs := e.runs.filter (fun r => r.rid != rid) }
      :: removeRunInBlocks rid bs
  | b :: bs => b :: removeRunInBlocks rid bs

/-- `run.parentNode.removeChild(run)` for a `w:r` reference (top level or
inside an insertion envelope). -/
def removeRun (d : Doc) (rid : Nat) : Doc :=
  { d with paras := d.paras.map (removeRunInBlocks rid) }

/-- The recurring `if not run.getElementsByTagName("w:t") and run.parentNode:
run.parentNode.removeChild(run)` pattern: remove the referenced run when it
has been left with no `w:t` children. -/
def removeRunIfEmpty (d : Doc) (rid : Nat) : Doc :=
  match findRun d rid with
  | some r => if r.wts = [] then removeRun d rid else d
  | none => d

/-- `ins_elem.parentNode.removeChild(ins_elem)` for a `w:ins` reference. -/
def removeInsEnv (d : Doc) (eid : Nat) : Doc :=
  { d with paras := d.paras.map (fun p => p.filter (fun b =>
      match b with
      | .ins e => e.eid != eid
      | _ => true)) }

/-- Insert runs at the front of a `w:ins` element (the `insertBefore
first_child` loop, or `appendChild` when the envelope is empty — both leave
the fresh runs in front in order). -/
def insertRunsFrontOfIns (eid : Nat) (rs : List Run) (d : Doc) : Doc :=
  { d with paras := d.paras.map (fun p => p.map (fun b =>
      match b with
      | .ins e => if e.eid == eid then .ins { e with runs := rs ++ e.runs } else .ins e
      | b => b)) }

def insertAfterInsInBlocks (eid : Nat) (frag : List Block) : List Block → List Block
  | [] => []
  | .ins e :: bs =>
    if e.eid == eid then .ins e :: (frag ++ insertAfterInsInBlocks eid frag bs)
    else .ins e :: insertAfterInsInBlocks eid frag bs
  | b :: bs => b :: insertAfterInsInBlocks eid frag bs

def runsOnly (bs : List Block) : List Run :=
  bs.filterMap (fun b =>
    match b with
    | .run r => some r
    | _ => none)

def allRunBlocks (bs : List Block) : Bool :=
  bs.all (fun b =>
    match b with
    | .run _ => true
    | _ => false)

def envHasRun (rid : Nat) (e : Env) : Bool :=
  e.runs.any (fun r => r.rid == rid)

def insertBesideRunInRuns (after : Bool) (rid : Nat) (new : List Run) :
    List Run → List Run
  | [] => []
  | r :: t =>
    let rest := insertBesideRunInRuns after rid new t
    if r.rid == rid then
      if after then r :: (new ++ rest) else new ++ r :: rest
    else r :: rest

/-- `editor.insert_before/insert_after(run, frag)`.  When the referenced run
lies inside an envelope only runs can be spliced beside it; a fragment
containing envelope blocks at such a position would nest revision envelopes,
which the tree type (like the OOXML revision convention) does not represent —
it is spliced beside the enclosing envelope instead. -/
def insertBesideRunInBlocks (after : Bool) (rid : Nat) (frag : List Block) :
    List Block → List Block
  | [] => []
  | b :: bs =>
    let rest := insertBesideRunInBlocks after rid frag bs
    match b with
    | .run r =>
      if r.rid == rid then
        if after then .run r :: (frag ++ rest) else frag ++ .run r :: rest
      else .run r :: rest
    | .ins e =>
      if envHasRun rid e then
        if allRunBlocks frag then
          .ins { e with runs := insertBesideRunInRuns after rid (runsOnly frag) e.runs } :: rest
        else if after then .ins e :: (frag ++ rest) else frag ++ .ins e :: rest
      else .ins e :: rest
    | b => b :: rest

def replaceRunInRuns (rid : Nat) (new : List Run) : List Run → List Run
  | [] => []
  | r :: t =>
    let rest := replaceRunInRuns rid new t
    if r.rid == rid then new ++ rest else r :: rest

/-- `editor.replace_node(run, frag)` splice (the referenced run is a
top-level run on every source path; the envelope case is for totality). -/
def replaceRunInBlocks (rid : Nat) (frag : List Block) : List Block → List Block
  | [] => []
  | b :: bs =>
    let rest := replaceRunInBlocks rid frag bs
    match b with
    | .run r => if r.rid == rid then frag ++ rest else .run r :: rest
    | .ins e =>
      if envHasRun rid e then
        .ins { e with runs := replaceRunInRuns rid (runsOnly frag) e.runs } :: rest
      else .ins e :: rest
    | b => b :: rest

/- ### The DOM editor's fragment parsing (modelled from the spec) -/

/-- Modelled from the spec (section 4.4): every envelope emitted by the
rewriter is stamped with a fresh monotonically increasing numeric id, the
session author and the session timestamp, in fragment document order. -/
def stampBlocks (author date : Str) : Nat → List Block → List Block × Nat
  | n, [] => ([], n)
  | n, .ins e :: bs =>
    let rest := stampBlocks author date (n + 1) bs
    (.ins { e with wid := (n : Int), author := author, date := date } :: rest.1, rest.2)
  | n, .del e :: bs =>
    let rest := stampBlocks author date (n + 1) bs
    (.del { e with wid := (n : Int), author := author, date := date } :: rest.1, rest.2)
  | n, b :: bs =>
    let rest := stampBlocks author date n bs
    (b :: rest.1, rest.2)

/-- Modelled from the spec: `editor._parse_fragment` — parse (and stamp) a
fragment, consuming fresh revision ids. -/
def parse_fragment (d : Doc) (frag : List Block) : List Block × Doc :=
  let s := stampBlocks d.author d.date d.nextId frag
  (s.1, { d with nextId := s.2 })

/-- `editor.replace_node(run, xml)`: parse the fragment and replace the
referenced run with it; returns the new nodes. -/
def replace_node (d : Doc) (rid : Nat) (frag : List Block) : List Block × Doc :=
  let s := parse_fragment d frag
  (s.1, { s.2 with paras := s.2.paras.map (replaceRunInBlocks rid s.1) })

/-- `editor.insert_before(run, xml)`. -/
def insert_before_run (d : Doc) (rid : Nat) (frag : List Block) : List Block × Doc :=
  let s := parse_fragment d frag
  (s.1, { s.2 with paras := s.2.paras.map (insertBesideRunInBlocks false rid s.1) })

/-- `editor.insert_after(run, xml)`. -/
def insert_after_run (d : Doc) (rid : Nat) (frag : List Block) : List Block × Doc :=
  let s := parse_fragment d frag
  (s.1, { s.2 with paras := s.2.paras.map (insertBesideRunInBlocks true rid s.1) })

/-- `editor.insert_after(ins_elem, xml)` for a `w:ins` reference. -/
def insert_after_ins (d : Doc) (eid : Nat) (frag : List Block) : List Block × Doc :=
  let s := parse_fragment d frag
  (s.1, { s.2 with paras := s.2.paras.map (insertAfterInsInBlocks eid s.1) })

/- ### Fragment builders (escaping round-trips through the parser, so the
emitted XML strings are modelled by the values they parse to) -/

def mkWt (v : Str) : Wt := ⟨0, v, false⟩

def mkRun (rPr : Option Str) (v : Str) : Run := ⟨0, rPr, none, none, [mkWt v]⟩

def mkRunBlock (rPr : Option Str) (v : Str) : Block := .run (mkRun rPr v)

/-- `<w:del><w:r>{rPr}<w:delText>v</w:delText></w:r></w:del>` before
stamping. -/
def mkDelBlock (rPr : Option Str) (v : Str) : Block :=
  .del ⟨0, 0, [], [], [mkRun rPr v]⟩

/-- `<w:ins><w:r>{rPr}<w:t>v</w:t></w:r></w:ins>` before stamping. -/
def mkInsBlock (rPr : Option Str) (v : Str) : Block :=
  .ins ⟨0, 0, [], [], [mkRun rPr v]⟩

/-- `for node in nodes: if node.tagName == "w:ins": return int(w:id)`,
with fallthrough `-1`. -/
def firstInsWid : List Block → Int
  | [] => -1
  | .ins e :: _ => e.wid
  | _ :: bs => firstInsWid bs

/-- The same scan for the first `w:del`. -/
def firstDelWid : List Block → Int
  | [] => -1
  | .del e :: _ => e.wid
  | _ :: bs => firstDelWid bs

/- ### Cross-boundary machinery -/

/-- Per-node offset range of a match (the `first_offset`/`last_offset`
entries of the grouping dictionaries). -/
structure NodeGroup where
  nid : Nat
  first : Nat
  last : Nat
deriving DecidableEq

/-- One step of the `OrderedDict` grouping: a new node id is appended, a
known one has its `last` offset updated. -/
def upsertGroup (acc : List NodeGroup) (p : Pos) : List NodeGroup :=
  if acc.any (fun g => g.nid == p.wtNid) then
    acc.map (fun g => if g.nid == p.wtNid then { g with last := p.offset } else g)
  else acc ++ [⟨p.wtNid, p.offset, p.offset⟩]

/-- Group match positions by their `w:t` node in document order. -/
def groupByNode (ps : List Pos) : List NodeGroup :=
  ps.foldl upsertGroup []

/-- One tuple of `RevisionManager._build_cross_boundary_parts`:
`(run, rPr_xml, before, matched, after)`. -/
structure CBPart where
  run : Run
  rPr : Option Str
  before : Str
  matched : Str
  after : Str
deriving DecidableEq

structure NodeData where
  run : Run
  rPr : Option Str
  nid : Nat
  first : Nat
  last : Nat
deriving DecidableEq

def upsertNodeData (d : Doc) (acc : List NodeData) (p : Pos) : List NodeData :=
  match findWtCtx d p.wtNid with
  | none => acc
  | some (run, _) =>
    if acc.any (fun g => g.nid == p.wtNid) then
      acc.map (fun g => if g.nid == p.wtNid then { g with last := p.offset } else g)
    else acc ++ [⟨run, run.rPr, p.wtNid, p.offset, p.offset⟩]

/-- `RevisionManager._build_cross_boundary_parts`. -/
def build_cross_boundary_parts (d : Doc) (m : Match) : List CBPart :=
  let nodeData := m.positions.foldl (upsertNodeData d) []
  nodeData.map (fun g =>
    let t := getNodeText d g.nid
    ⟨g.run, g.rPr, t.take g.first, (t.take (g.last + 1)).drop g.first, t.drop (g.last + 1)⟩)

def classifySegGo (cur : Bool) (accRev : List Pos) :
    List Pos → List (Bool × List Pos)
  | [] => [(cur, accRev.reverse)]
  | p :: ps =>
    if p.insideIns == cur then classifySegGo cur (p :: accRev) ps
    else (cur, accRev.reverse) :: classifySegGo p.insideIns [p] ps

/-- `RevisionManager._classify_segments`: maximal contiguous partition of
the match positions by revision context. -/
def classify_segments : List Pos → List (Bool × List Pos)
  | [] => []
  | p :: ps => classifySegGo p.insideIns [p] ps

/-- `RevisionManager._remove_wt_and_maybe_run`: remove a `w:t` and its
parent run when no `w:t` children remain. -/
def remove_wt_and_maybe_run (d : Doc) (nid : Nat) : Doc :=
  match findWtCtx d nid with
  | none => d
  | some (run, _) => removeRunIfEmpty (removeWt d nid) run.rid

/-- `RevisionManager._remove_from_insertion`: carve a matched region out of
an insertion envelope without emitting a deletion wrapper. -/
def remove_from_insertion (d : Doc) (positions : List Pos) : Doc :=
  match groupByNode positions with
  | [] => d
  | firstG :: restG =>
    let groups := firstG :: restG
    let lastG := groups.getLastD firstG
    let firstNid := firstG.nid
    let lastNid := lastG.nid
    let firstOffset := firstG.first
    let lastOffset := lastG.last
    let before := (getNodeText d firstNid).take firstOffset
    let after := (getNodeText d lastNid).drop (lastOffset + 1)
    let insElem := (findWtCtx d firstNid).bind (fun c => c.2)
    if before = [] ∧ after = [] ∧
        groups.length = (get_wt_nodes_in_ancestor insElem).length then
      match insElem with
      | some e => removeInsEnv d e.eid
      | none => d
    else if groups.length = 1 then
      let nodeText := getNodeText d firstNid
      let beforeText := nodeText.take firstOffset
      let afterText := nodeText.drop (lastOffset + 1)
      if beforeText = [] ∧ afterText = [] then
        match insElem with
        | some e =>
          if (get_wt_nodes_in_ancestor insElem).length = 1 then
            removeInsEnv d e.eid
          else
            match (findWtCtx d firstNid).map (fun c => c.1) with
            | some r => removeRunIfEmpty (removeWt d firstNid) r.rid
            | none => removeWt d firstNid
        | none => d
      else if beforeText = [] then setWtVal d firstNid afterText
      else if afterText = [] then setWtVal d firstNid beforeText
      else
        let d1 := setWtVal d firstNid beforeText
        match insElem, (findWtCtx d firstNid).map (fun c => c.1) with
        | some e, some run =>
          (insert_after_ins d1 e.eid [mkInsBlock run.rPr afterText]).2
        | _, _ => d1
    else
      let d1 :=
        if before ≠ [] then set_xml_space_preserve (setWtVal d firstNid before) firstNid
        else remove_wt_and_maybe_run d firstNid
      let d2 :=
        if after ≠ [] then set_xml_space_preserve (setWtVal d1 lastNid after) lastNid
        else remove_wt_and_maybe_run d1 lastNid
      (groups.drop 1).dropLast.foldl (fun dd g =>
        let nodeText := getNodeText dd g.nid
        if nodeText = [] ∨ nodeText = getNodeText dd g.nid then
          remove_wt_and_maybe_run dd g.nid
        else dd) d2

/- ### `_delete_regular_segment` -/

structure RunGroup where
  run : Run
  rPr : Option Str
  nodes : List NodeGroup
deriving DecidableEq

def upsertRunGroup (d : Doc) (acc : List RunGroup) (p : Pos) : List RunGroup :=
  match findWtCtx d p.wtNid with
  | none => acc
  | some (run, _) =>
    if acc.any (fun rg => rg.run.rid == run.rid) then
      acc.map (fun rg =>
        if rg.run.rid == run.rid then { rg with nodes := upsertGroup rg.nodes p } else rg)
    else acc ++ [⟨run, run.rPr, upsertGroup [] p⟩]

def findIdxP (p : α → Bool) : List α → Option (Nat × α)
  | [] => none
  | x :: xs =>
    if p x then some (0, x)
    else (findIdxP p xs).map (fun r => (r.1 + 1, r.2))

/-- Emission for one `w:t` of a run affected by `_delete_regular_segment`:
unmatched siblings are preserved, matched nodes are split into optional
`before`, a deletion wrapper, and optional `after`; only the globally first
(resp. last) node keeps a `before` (resp. `after`). -/
def emitDelPartsForWt (rPr : Option Str) (base total : Nat)
    (nodes : List NodeGroup) (w : Wt) : List Block :=
  match findIdxP (fun g => g.nid == w.nid) nodes with
  | none => if w.val ≠ [] then [mkRunBlock rPr w.val] else []
  | some (localIdx, ng) =>
    let globalPos := base + localIdx
    let isFirst := globalPos = 0
    let isLast := globalPos = total - 1
    let nodeText := w.val
    let before := if isFirst then nodeText.take ng.first else []
    let after := if isLast then nodeText.drop (ng.last + 1) else []
    let matched :=
      if ¬isFirst ∧ ¬isLast then nodeText
      else (nodeText.take (ng.last + 1)).drop ng.first
    (if before ≠ [] then [mkRunBlock rPr before] else [])
      ++ [mkDelBlock rPr matched]
      ++ (if after ≠ [] then [mkRunBlock rPr after] else [])

def deleteRegularGo (total : Nat) : List RunGroup → Nat → Int → Doc → Int × Doc
  | [], _, fid, d => (fid, d)
  | rg :: rest, base, fid, d =>
    let frag := (rg.run.wts.map (emitDelPartsForWt rg.rPr base total rg.nodes)).flatten
    let s := insert_before_run d rg.run.rid frag
    let d2 := removeRun s.2 rg.run.rid
    let fid2 := if fid = -1 then firstDelWid s.1 else fid
    deleteRegularGo total rest (base + rg.nodes.length) fid2 d2

/-- `RevisionManager._delete_regular_segment`: wrap a non-insertion segment
in deletion envelopes, one affected run at a time (the per-run iteration
with the `processed_runs` set visits each grouped run exactly once, in
grouping order). -/
def delete_regular_segment (d : Doc) (positions : List Pos) : Int × Doc :=
  let runGroups := positions.foldl (upsertRunGroup d) []
  let total := (runGroups.map (fun rg => rg.nodes.length)).sum
  deleteRegularGo total runGroups 0 (-1) d

/- ### Same-context cross-boundary paths -/

structure RunParts where
  run : Run
  rPr : Option Str
  parts : List CBPart
deriving DecidableEq

def groupPartsByRun (parts : List CBPart) : List RunParts :=
  parts.foldl (fun acc pt =>
    if acc.any (fun rp => rp.run.rid == pt.run.rid) then
      acc.map (fun rp =>
        if rp.run.rid == pt.run.rid then { rp with parts := rp.parts ++ [pt] } else rp)
    else acc ++ [⟨pt.run, pt.rPr, [pt]⟩]) []

/-- Emission over one run's `w:t` nodes for `_replace_same_context`: parts
are consumed in order for matched nodes; the replacement insertion is
emitted immediately after the globally last deletion. -/
def emitReplaceRunWts (rPr firstRPr : Option Str) (rw : Str)
    (matchedNids : List Nat) (rparts : List CBPart) (partIdx total : Nat) :
    List Wt → Nat → List Block
  | [], _ => []
  | w :: ws, subIdx =>
    if matchedNids.contains w.nid ∧ subIdx < rparts.length then
      match rparts[subIdx]? with
      | some pt =>
        (if pt.before ≠ [] then [mkRunBlock rPr pt.before] else [])
          ++ [mkDelBlock rPr pt.matched]
          ++ (if partIdx + (subIdx + 1) = total then [mkInsBlock firstRPr rw] else [])
          ++ (if pt.after ≠ [] then [mkRunBlock rPr pt.after] else [])
          ++ emitReplaceRunWts rPr firstRPr rw matchedNids rparts partIdx total ws (subIdx + 1)
      | none => emitReplaceRunWts rPr firstRPr rw matchedNids rparts partIdx total ws subIdx
    else
      (if w.val ≠ [] then [mkRunBlock rPr w.val] else [])
        ++ emitReplaceRunWts rPr firstRPr rw matchedNids rparts partIdx total ws subIdx

def replaceEmitAll (firstRPr : Option Str) (rw : Str) (matchedNids : List Nat)
    (total : Nat) : List RunParts → Nat → List Block
  | [], _ => []
  | rp :: rest, partIdx =>
    emitReplaceRunWts rp.rPr firstRPr rw matchedNids rp.parts partIdx total rp.run.wts 0
      ++ replaceEmitAll firstRPr rw matchedNids total rest (partIdx + rp.parts.length)

/-- The block right after the first `w:ins` with node id `eid`. -/
def nextSiblingOfIns (eid : Nat) : List Block → Option Block
  | [] => none
  | .ins e :: bs => if e.eid == eid then bs.head? else nextSiblingOfIns eid bs
  | _ :: bs => nextSiblingOfIns eid bs

def paraContainsIns (eid : Nat) (p : Para) : Bool :=
  p.any (fun b =>
    match b with
    | .ins e => e.eid == eid
    | _ => false)

def sameBlockNode : Block → Block → Bool
  | .run r, .run r2 => r.rid == r2.rid
  | .ins e, .ins e2 => e.eid == e2.eid
  | .del e, .del e2 => e.eid == e2.eid
  | .marker, .marker => true
  | _, _ => false

def insertBeforeBlockIn (target : Block) (frag : List Block) : List Block → List Block
  | [] => []
  | b :: bs =>
    if sameBlockNode target b then frag ++ b :: insertBeforeBlockIn target frag bs
    else b :: insertBeforeBlockIn target frag bs

/-- `parent.insertBefore(node, refOrNone)` relative to a saved sibling
reference inside the paragraph with index `paraIdx` (append when the saved
reference is `none`). -/
def insertAtSavedSpot (d : Doc) (paraIdx : Nat) (next : Option Block)
    (frag : List Block) : Doc :=
  match next with
  | some target =>
    { d with paras := d.paras.map (insertBeforeBlockIn target frag) }
  | none =>
    { d with paras := d.paras.set paraIdx (d.paras.getD paraIdx [] ++ frag) }

/-- `RevisionManager._replace_same_context`. -/
def replace_same_context (d : Doc) (m : Match) (rw : Str) : Int × Doc :=
  let parts := build_cross_boundary_parts d m
  match parts with
  | [] => (-1, d)
  | p0 :: _ =>
    if m.positions.all (fun p => p.insideIns) then
      match m.positions with
      | [] => (-1, d)
      | pos0 :: _ =>
        let insElem := (findWtCtx d pos0.wtNid).bind (fun c => c.2)
        let insParaIdx :=
          match insElem with
          | some e => d.paras.findIdx (paraContainsIns e.eid)
          | none => 0
        let insNext :=
          match insElem with
          | some e => nextSiblingOfIns e.eid (d.paras.getD insParaIdx [])
          | none => none
        let d1 := remove_from_insertion d m.positions
        let newRunFrag := [mkRunBlock p0.rPr rw]
        match insElem with
        | some e =>
          if d1.paras.any (paraContainsIns e.eid) then
            let s := parse_fragment d1 newRunFrag
            (-1, insertRunsFrontOfIns e.eid (runsOnly s.1) s.2)
          else
            let s := parse_fragment d1 [mkInsBlock p0.rPr rw]
            (-1, insertAtSavedSpot s.2 insParaIdx insNext s.1)
        | none => (-1, d1)
    else
      let firstRPr := p0.rPr
      let matchedNids := m.positions.map (fun p => p.wtNid)
      let runParts := groupPartsByRun parts
      let total := parts.length
      let frag := replaceEmitAll firstRPr rw matchedNids total runParts 0
      let s := insert_before_run d p0.run.rid frag
      let d1 := parts.foldl (fun dd pt => removeRun dd pt.run.rid) s.2
      (firstInsWid s.1, d1)

/-- Emission over one run's `w:t` nodes for `_delete_same_context`: parts
are paired with the run's matched nodes in document order; matched nodes
beyond the available parts emit nothing. -/
def emitDeleteRunWts (rPr : Option Str) (matchedNids : List Nat)
    (assigned : List (Nat × CBPart)) : List Wt → List Block
  | [] => []
  | w :: ws =>
    (match assigned.find? (fun a => a.1 == w.nid) with
     | some (_, pt) =>
       (if pt.before ≠ [] then [mkRunBlock pt.rPr pt.before] else [])
         ++ [mkDelBlock pt.rPr pt.matched]
         ++ (if pt.after ≠ [] then [mkRunBlock pt.rPr pt.after] else [])
     | none =>
       if matchedNids.contains w.nid then []
       else if w.val ≠ [] then [mkRunBlock rPr w.val] else [])
      ++ emitDeleteRunWts rPr matchedNids assigned ws

/-- `RevisionManager._delete_same_context`. -/
def delete_same_context (d : Doc) (m : Match) : Int × Doc :=
  let parts := build_cross_boundary_parts d m
  match parts with
  | [] => (-1, d)
  | p0 :: _ =>
    if m.positions.all (fun p => p.insideIns) then
      (-1, remove_from_insertion d m.positions)
    else
      let matchedNids := m.positions.map (fun p => p.wtNid)
      let runParts := groupPartsByRun parts
      let frag := (runParts.map (fun rp =>
        let assigned :=
          ((rp.run.wts.filter (fun w => matchedNids.contains w.nid)).map
            (fun w => w.nid)).zip rp.parts
        emitDeleteRunWts rp.rPr matchedNids assigned rp.run.wts)).flatten
      let s := insert_before_run d p0.run.rid frag
      let d1 := parts.foldl (fun dd pt => removeRun dd pt.run.rid) s.2
      (firstDelWid s.1, d1)

/- ### Mixed-state paths -/

/-- The splice reference of the mixed-state rewriter: the first affected
top-level node. -/
inductive RefNode where
  | runRef (rid : Nat)
  | insRef (eid : Nat)
deriving DecidableEq

def blockIsRef : RefNode → Block → Bool
  | .runRef rid, .run r => r.rid == rid
  | .insRef eid, .ins e => e.eid == eid
  | _, _ => false

/-- `ref_node.parentNode.insertBefore(marker, ref_node)`. -/
def insertMarkerBefore (ref : RefNode) (d : Doc) : Doc :=
  { d with paras := d.paras.map (fun p => p.flatMap (fun b =>
      if blockIsRef ref b then [Block.marker, b] else [b])) }

def isMarker : Block → Bool
  | .marker => true
  | _ => false

/-- The sibling scan after the marker: remember the latest `w:del`, stop at
the first non-deletion element once a deletion has been seen; returns the
index (relative to the blocks after the marker) of the last deletion of the
leading group, if any. -/
def lastDelScanAux : List Block → Nat → Option Nat → Option Nat
  | [], _, acc => acc
  | .del _ :: bs, i, _ => lastDelScanAux bs (i + 1) (some i)
  | _ :: bs, i, acc =>
    match acc with
    | some j => some j
    | none => lastDelScanAux bs (i + 1) none

def lastDelScan (bs : List Block) : Option Nat :=
  lastDelScanAux bs 0 none

/-- Net effect of the replacement insertion of `_replace_mixed_state` on
the paragraph holding the marker: splice the fragment after the last
deletion of the group following the marker (after the marker itself when no
deletion was found), then remove the marker. -/
def mixedInsertInPara (frag : List Block) (p : Para) : Para :=
  let pre := p.takeWhile (fun b => !isMarker b)
  match p.dropWhile (fun b => !isMarker b) with
  | [] => p
  | _ :: post =>
    match lastDelScan post with
    | some j => pre ++ (post.take (j + 1) ++ frag ++ post.drop (j + 1))
    | none => pre ++ (frag ++ post)

/-- `RevisionManager._replace_mixed_state`. -/
def replace_mixed_state (d : Doc) (m : Match) (rw : Str) : Int × Doc :=
  match m.positions with
  | [] => (-1, d)
  | pos0 :: _ =>
    let segments := classify_segments m.positions
    let firstCtx := findWtCtx d pos0.wtNid
    let firstRPr :=
      match firstCtx with
      | some (r, _) => r.rPr
      | none => none
    let refNode : Option RefNode :=
      if pos0.insideIns then
        (firstCtx.bind (fun c => c.2)).map (fun e => RefNode.insRef e.eid)
      else firstCtx.map (fun c => RefNode.runRef c.1.rid)
    match refNode with
    | none => (-1, d)
    | some ref =>
      let d1 := insertMarkerBefore ref d
      let d2 := segments.foldl (fun dd seg =>
        if seg.1 then remove_from_insertion dd seg.2
        else (delete_regular_segment dd seg.2).2) d1
      let s := parse_fragment d2 [mkInsBlock firstRPr rw]
      let d3 := { s.2 with paras := s.2.paras.map (fun p =>
        if p.any isMarker then mixedInsertInPara s.1 p else p) }
      (firstInsWid s.1, d3)

/-- `RevisionManager._delete_mixed_state`. -/
def delete_mixed_state (d : Doc) (m : Match) : Int × Doc :=
  let segments := classify_segments m.positions
  segments.foldl (fun (acc : Int × Doc) seg =>
    if seg.1 then (acc.1, remove_from_insertion acc.2 seg.2)
    else
      let r := delete_regular_segment acc.2 seg.2
      (if acc.1 = -1 then r.1 else acc.1, r.2)) (-1, d)

/-- `RevisionManager._replace_across_nodes`. -/
def replace_across_nodes (d : Doc) (m : Match) (rw : Str) : Int × Doc :=
  if m.spans then replace_mixed_state d m rw else replace_same_context d m rw

/-- `RevisionManager._delete_across_nodes`. -/
def delete_across_nodes (d : Doc) (m : Match) : Int × Doc :=
  if m.spans then delete_mixed_state d m else delete_same_context d m

/-- `RevisionManager._insert_near_match`. -/
def insert_near_match (d : Doc) (m : Match) (text : Str) (posBefore : Bool) :
    Int × Doc :=
  match m.positions with
  | [] => (-1, d)
  | pos0 :: _ =>
    let firstCtx := findWtCtx d pos0.wtNid
    let rPr :=
      match firstCtx with
      | some (r, _) => r.rPr
      | none => none
    let lastPos := m.positions.getLastD pos0
    let refCtx := if posBefore then firstCtx else findWtCtx d lastPos.wtNid
    match refCtx with
    | none => (-1, d)
    | some (refRun, refIns) =>
      if m.positions.all (fun p => p.insideIns) ∧ refIns.isSome then
        let s :=
          if posBefore then insert_before_run d refRun.rid [mkRunBlock rPr text]
          else insert_after_run d refRun.rid [mkRunBlock rPr text]
        (-1, s.2)
      else
        let s :=
          if posBefore then insert_before_run d refRun.rid [mkInsBlock rPr text]
          else insert_after_run d refRun.rid [mkInsBlock rPr text]
        (firstInsWid s.1, s.2)

/- ### The public mutating operations -/

/-- The pre-mutation resolution common to `replace_text` and
`suggest_deletion` (the two methods share this branching line for line):
fast leaf search, parent-run lookup, in-leaf offset, delegation to the
cross-boundary search when the run holds several `w:t` nodes, and the
cross-boundary fallback re-raising the original not-found error. -/
inductive ResolveOut where
  | err (e : Err)
  | fast (wt : Wt) (run : Run) (insAnc : Option Env) (startIdx : Nat)
  | cross (m : Match)
deriving DecidableEq

def resolve_simple_or_cross (d : Doc) (q : Str) (occ : Nat) : ResolveOut :=
  match get_nth_match d q occ with
  | .error e =>
    match find_across_boundaries d q occ with
    | .error e2 => .err e2
    | .ok none => .err e
    | .ok (some m) => .cross m
  | .ok wt =>
    match findWtCtx d wt.nid with
    | none => .err .revisionError
    | some (run, insAnc) =>
      match listFindSub wt.val q with
      | none => .err .notFound
      | some startIdx =>
        if run.wts.length > 1 then
          match find_across_boundaries d q occ with
          | .error e2 => .err e2
          | .ok (some m) => .cross m
          | .ok none => .fast wt run insAnc startIdx
        else .fast wt run insAnc startIdx

/-- The single-leaf tail of `replace_text`: in-place edit inside `w:ins`
(site A), or the `[before?, del, ins, after?]` fragment replacing the run. -/
def replace_text_fast (d : Doc) (wt : Wt) (run : Run) (insAnc : Option Env)
    (startIdx : Nat) (find rw : Str) : Int × Doc :=
  let fullText := wt.val
  let beforeText := fullText.take startIdx
  let afterText := fullText.drop (startIdx + find.length)
  if insAnc.isSome then
    (-1, set_xml_space_preserve (setWtVal d wt.nid (beforeText ++ rw ++ afterText)) wt.nid)
  else
    let frag :=
      (if beforeText ≠ [] then [mkRunBlock run.rPr beforeText] else [])
        ++ [mkDelBlock run.rPr find, mkInsBlock run.rPr rw]
        ++ (if afterText ≠ [] then [mkRunBlock run.rPr afterText] else [])
    let s := replace_node d run.rid frag
    (firstInsWid s.1, s.2)

/-- `RevisionManager.replace_text`. -/
def replace_text (d : Doc) (find rw : Str) (occurrence : Nat) :
    Except Err Int × Doc :=
  match resolve_simple_or_cross d find occurrence with
  | .err e => (.error e, d)
  | .fast wt run insAnc startIdx =>
    let r := replace_text_fast d wt run insAnc startIdx find rw
    (.ok r.1, r.2)
  | .cross m =>
    let r := replace_across_nodes d m rw
    (.ok r.1, r.2)

/-- The single-leaf tail of `suggest_deletion`: shrink inside `w:ins`
(site B), or the `[before?, del, after?]` fragment replacing the run. -/
def suggest_deletion_fast (d : Doc) (wt : Wt) (run : Run) (insAnc : Option Env)
    (startIdx : Nat) (text : Str) : Int × Doc :=
  let fullText := wt.val
  let beforeText := fullText.take startIdx
  let afterText := fullText.drop (startIdx + text.length)
  match insAnc with
  | some e =>
    let remaining := beforeText ++ afterText
    if remaining ≠ [] then
      (-1, set_xml_space_preserve (setWtVal d wt.nid remaining) wt.nid)
    else if (get_wt_nodes_in_ancestor (some e)).length = 1 then
      (-1, removeInsEnv d e.eid)
    else
      (-1, removeRunIfEmpty (removeWt d wt.nid) run.rid)
  | none =>
    let frag :=
      (if beforeText ≠ [] then [mkRunBlock run.rPr beforeText] else [])
        ++ [mkDelBlock run.rPr text]
        ++ (if afterText ≠ [] then [mkRunBlock run.rPr afterText] else [])
    let s := replace_node d run.rid frag
    (firstDelWid s.1, s.2)

/-- `RevisionManager.suggest_deletion`. -/
def suggest_deletion (d : Doc) (text : Str) (occurrence : Nat) :
    Except Err Int × Doc :=
  match resolve_simple_or_cross d text occurrence with
  | .err e => (.error e, d)
  | .fast wt run insAnc startIdx =>
    let r := suggest_deletion_fast d wt run insAnc startIdx text
    (.ok r.1, r.2)
  | .cross m =>
    let r := delete_across_nodes d m
    (.ok r.1, r.2)

/-- The pre-mutation resolution of `_insert_text`: the in-insertion
in-place edit (site C) is chosen before the multi-`w:t` delegation. -/
def resolve_insert_text (d : Doc) (anchor : Str) (occ : Nat) : ResolveOut :=
  match get_nth_match d anchor occ with
  | .error _ =>
    match find_across_boundaries d anchor occ with
    | .error e2 => .err e2
    | .ok none => .err .notFound
    | .ok (some m) => .cross m
  | .ok wt =>
    match findWtCtx d wt.nid with
    | none => .err .revisionError
    | some (run, insAnc) =>
      match listFindSub wt.val anchor with
      | none => .err .notFound
      | some anchorIdx =>
        if insAnc.isSome then .fast wt run insAnc anchorIdx
        else if run.wts.length > 1 then
          match find_across_boundaries d anchor occ with
          | .error e2 => .err e2
          | .ok (some m) => .cross m
          | .ok none => .fast wt run insAnc anchorIdx
        else .fast wt run insAnc anchorIdx

/-- The single-leaf tail of `_insert_text`: in-place text merge inside
`w:ins` (site C), or the split `[before?, ins/anchor, after?]` fragment. -/
def insert_text_fast (d : Doc) (wt : Wt) (run : Run) (insAnc : Option Env)
    (anchorIdx : Nat) (anchor text : Str) (posBefore : Bool) : Int × Doc :=
  let fullText := wt.val
  let beforeText := fullText.take anchorIdx
  let afterText := fullText.drop (anchorIdx + anchor.length)
  if insAnc.isSome then
    let newVal :=
      if posBefore then beforeText ++ text ++ anchor ++ afterText
      else beforeText ++ anchor ++ text ++ afterText
    (-1, set_xml_space_preserve (setWtVal d wt.nid newVal) wt.nid)
  else
    let insFrag := mkInsBlock run.rPr text
    let middle :=
      if posBefore then [insFrag, mkRunBlock run.rPr anchor]
      else [mkRunBlock run.rPr anchor, insFrag]
    let frag :=
      (if beforeText ≠ [] then [mkRunBlock run.rPr beforeText] else [])
        ++ middle
        ++ (if afterText ≠ [] then [mkRunBlock run.rPr afterText] else [])
    let s := replace_node d run.rid frag
    (firstInsWid s.1, s.2)

/-- `RevisionManager._insert_text`. -/
def insert_text (d : Doc) (anchor text : Str) (posBefore : Bool)
    (occurrence : Nat) : Except Err Int × Doc :=
  match resolve_insert_text d anchor occurrence with
  | .err e => (.error e, d)
  | .fast wt run insAnc anchorIdx =>
    let r := insert_text_fast d wt run insAnc anchorIdx anchor text posBefore
    (.ok r.1, r.2)
  | .cross m =>
    let r := insert_near_match d m text posBefore
    (.ok r.1, r.2)

/-- `RevisionManager.insert_text_before`. -/
def insert_text_before (d : Doc) (anchor text : Str) (occurrence : Nat) :
    Except Err Int × Doc :=
  insert_text d anchor text true occurrence

/-- `RevisionManager.insert_text_after`. -/
def insert_text_after (d : Doc) (anchor text : Str) (occurrence : Nat) :
    Except Err Int × Doc :=
  insert_text d anchor text false occurrence

/- ### Revision enumeration, accept and reject -/

/-- The logical view of one envelope (`Revision`); the date is kept as the
raw attribute string. -/
structure Revision where
  id : Int
  isInsertion : Bool
  author : Str
  date : Str
  text : Str
deriving DecidableEq

/-- All insertion envelopes in document order
(`dom.getElementsByTagName("w:ins")`). -/
def insEnvs (d : Doc) : List Env :=
  (d.paras.map (fun p => p.filterMap (fun b =>
    match b with
    | .ins e => some e
    | _ => none))).flatten

/-- All deletion envelopes in document order. -/
def delEnvs (d : Doc) : List Env :=
  (d.paras.map (fun p => p.filterMap (fun b =>
    match b with
    | .del e => some e
    | _ => none))).flatten

/-- `RevisionManager._parse_revision` (text from `w:t` descendants for
insertions, `w:delText` descendants for deletions — in the model both are
the envelope's spans). -/
def parse_revision (isIns : Bool) (e : Env) : Revision :=
  ⟨e.wid, isIns, e.author, e.date, (e.runs.map runText).flatten⟩

def authorMatches (a : Option Str) (r : Revision) : Bool :=
  match a with
  | none => true
  | some s => r.author == s

/-- Stable insertion (ascending by id): Python `list.sort(key=lambda r: r.id)`. -/
def insRevAsc (x : Revision) : List Revision → List Revision
  | [] => [x]
  | y :: ys => if x.id < y.id then x :: y :: ys else y :: insRevAsc x ys

def sortRevsAsc (l : List Revision) : List Revision :=
  l.foldr insRevAsc []

/-- Stable descending sort: Python `sorted(key=lambda r: r.id, reverse=True)`. -/
def insRevDesc (x : Revision) : List Revision → List Revision
  | [] => [x]
  | y :: ys => if y.id < x.id then x :: y :: ys else y :: insRevDesc x ys

def sortRevsDesc (l : List Revision) : List Revision :=
  l.foldr insRevDesc []

/-- `RevisionManager.list_revisions`: all insertions then all deletions,
optionally filtered by author, sorted ascending by id. -/
def list_revisions (d : Doc) (a : Option Str) : List Revision :=
  sortRevsAsc
    (((insEnvs d).map (parse_revision true)).filter (authorMatches a)
      ++ ((delEnvs d).map (parse_revision false)).filter (authorMatches a))

/-- Scan paragraphs with a per-paragraph partial rewrite, applying it to the
first paragraph where it fires. -/
def scanParas (f : List Block → Option (List Block)) :
    List Para → Option (List Para)
  | [] => none
  | p :: ps =>
    match f p with
    | some p2 => some (p2 :: ps)
    | none => (scanParas f ps).map (fun r => p :: r)

/-- Accept insertion: unwrap the first `w:ins` whose `w:id` matches,
keeping its children in place (`_unwrap_element`). -/
def acceptInsInBlocks (i : Int) : List Block → Option (List Block)
  | [] => none
  | .ins e :: bs =>
    if e.wid == i then some (e.runs.map Block.run ++ bs)
    else (acceptInsInBlocks i bs).map (fun r => .ins e :: r)
  | b :: bs => (acceptInsInBlocks i bs).map (fun r => b :: r)

/-- Accept deletion: remove the first `w:del` whose `w:id` matches. -/
def removeDelInBlocks (i : Int) : List Block → Option (List Block)
  | [] => none
  | .del e :: bs =>
    if e.wid == i then some bs
    else (removeDelInBlocks i bs).map (fun r => .del e :: r)
  | b :: bs => (removeDelInBlocks i bs).map (fun r => b :: r)

/-- Reject insertion: remove the first `w:ins` whose `w:id` matches. -/
def removeInsInBlocks (i : Int) : List Block → Option (List Block)
  | [] => none
  | .ins e :: bs =>
    if e.wid == i then some bs
    else (removeInsInBlocks i bs).map (fun r => .ins e :: r)
  | b :: bs => (removeInsInBlocks i bs).map (fun r => b :: r)

/-- `_restore_deletion` on a contained run: the `w:delText` leaves are
recreated as `w:t` leaves with the same content and attributes (the
whitespace-preservation flag is copied), and `w:rsidDel` is renamed back to
`w:rsidR`. -/
def restoreRun (r : Run) : Run :=
  match r.rsidDel with
  | some v => { r with rsidR := some v, rsidDel := none }
  | none => r

/-- Reject deletion: restore the deleted text and unwrap the first `w:del`
whose `w:id` matches. -/
def restoreDelInBlocks (i : Int) : List Block → Option (List Block)
  | [] => none
  | .del e :: bs =>
    if e.wid == i then some ((e.runs.map restoreRun).map Block.run ++ bs)
    else (restoreDelInBlocks i bs).map (fun r => .del e :: r)
  | b :: bs => (restoreDelInBlocks i bs).map (fun r => b :: r)

/-- `RevisionManager.accept_revision`. -/
def accept_revision (d : Doc) (i : Int) : Bool × Doc :=
  match scanParas (acceptInsInBlocks i) d.paras with
  | some ps => (true, { d with paras := ps })
  | none =>
    match scanParas (removeDelInBlocks i) d.paras with
    | some ps => (true, { d with paras := ps })
    | none => (false, d)

/-- `RevisionManager.reject_revision`. -/
def reject_revision (d : Doc) (i : Int) : Bool × Doc :=
  match scanParas (removeInsInBlocks i) d.paras with
  | some ps => (true, { d with paras := ps })
  | none =>
    match scanParas (restoreDelInBlocks i) d.paras with
    | some ps => (true, { d with paras := ps })
    | none => (false, d)

/-- `RevisionManager.accept_all`: enumerate, sort descending by id, apply
`accept_revision` to each, count successes. -/
def accept_all (d : Doc) (a : Option Str) : Nat × Doc :=
  let revs := sortRevsDesc (list_revisions d a)
  revs.foldl (fun acc rev =>
    let r := accept_revision acc.2 rev.id
    (acc.1 + (if r.1 then 1 else 0), r.2)) (0, d)

/-- `RevisionManager.reject_all`. -/
def reject_all (d : Doc) (a : Option Str) : Nat × Doc :=
  let revs := sortRevsDesc (list_revisions d a)
  revs.foldl (fun acc rev =>
    let r := reject_revision acc.2 rev.id
    (acc.1 + (if r.1 then 1 else 0), r.2)) (0, d)

/- ### The MCP tool layer (`docx_editor_mcp/tools.py`, `cache.py`) -/

/-- The document file's on-disk state, abstracted to its mtime (absent file:
`none`). -/
structure FileSys where
  mtime : Option Int
deriving DecidableEq

/-- `CachedDocument`: the in-memory document, session author, the cached
mtime baseline and the dirty flag. -/
structure CachedDocument where
  doc : Doc
  author : Str
  mtime : Int
  dirty : Bool
deriving DecidableEq

/-- `CachedDocument.has_external_changes`: false when the file no longer
exists, otherwise comparison of the current mtime with the baseline. -/
def has_external_changes (fs : FileSys) (c : CachedDocument) : Bool :=
  match fs.mtime with
  | none => false
  | some t => t != c.mtime

structure ToolState where
  fs : FileSys
  cached : CachedDocument
deriving DecidableEq

inductive ToolOutcome where
  | success (changeId : Int)
  | externalModification
  | notFoundError
  | otherError
deriving DecidableEq

/-- The shared body of every mutating track-changes/comment/revision tool:
`_check_external_changes` first, then the underlying document operation and
`mark_dirty` on success (tools.py repeats this pattern verbatim; the
underlying operation is a parameter). -/
def runMutatingTool (op : Doc → Except Err Int × Doc) (s : ToolState) :
    ToolOutcome × ToolState :=
  if has_external_changes s.fs s.cached then (.externalModification, s)
  else
    match op s.cached.doc with
    | (.ok k, d2) =>
      (.success k, { s with cached := { s.cached with doc := d2, dirty := true } })
    | (.error .notFound, d2) =>
      (.notFoundError, { s with cached := { s.cached with doc := d2 } })
    | (.error _, d2) =>
      (.otherError, { s with cached := { s.cached with doc := d2 } })

/-- `tools.save_document`: refuses on external changes; on save the file
gets a fresh mtime (`newMtime`), the dirty flag is cleared and the cached
mtime is re-baselined (`update_mtime`). -/
def save_document (newMtime : Int) (s : ToolState) : ToolOutcome × ToolState :=
  if has_external_changes s.fs s.cached then (.externalModification, s)
  else
    (.success 0,
      ⟨⟨some newMtime⟩, { s.cached with dirty := false, mtime := newMtime }⟩)

/-- `tools.force_save`: no external-changes check; saves unconditionally
and re-baselines the cached mtime to the file's current mtime. -/
def force_save (newMtime : Int) (s : ToolState) : ToolOutcome × ToolState :=
  (.success 0,
    ⟨⟨some newMtime⟩, { s.cached with dirty := false, mtime := newMtime }⟩)

/- ### Deletion-envelope bookkeeping (for the insertion-context invariant) -/

def delOfBlock : Block → Option Env
  | .del e => some e
  | _ => none

def delsOfBlocks (bs : List Block) : List Env :=
  bs.filterMap delOfBlock

/-- All deletion envelopes of the document, in document order. -/
def delsOf (d : Doc) : List Env :=
  (d.paras.map delsOfBlocks).flatten

theorem delsOfBlocks_append (bs cs : List Block) :
    delsOfBlocks (bs ++ cs) = delsOfBlocks bs ++ delsOfBlocks cs :=
  List.filterMap_append bs cs delOfBlock

theorem delsOfBlocks_map_of {F : Block → Block}
    (h : ∀ b, delOfBlock (F b) = delOfBlock b) (bs : List Block) :
    delsOfBlocks (bs.map F) = delsOfBlocks bs := by
  unfold delsOfBlocks
  rw [List.filterMap_map, show delOfBlock ∘ F = delOfBlock from funext h]

theorem delsOf_mapParas {F : Para → Para}
    (h : ∀ p, delsOfBlocks (F p) = delsOfBlocks p) (ps : List Para)
    (n : Nat) (a t : Str) :
    delsOf ⟨ps.map F, n, a, t⟩ = delsOf ⟨ps, n, a, t⟩ := by
  unfold delsOf
  simp only [List.map_map]
  rw [show delsOfBlocks ∘ F = delsOfBlocks from funext h]

theorem delsOf_nextId (d : Doc) (n : Nat) :
    delsOf { d with nextId := n } = delsOf d := rfl

theorem delsOf_mapDocWts (f : Wt → Wt) (d : Doc) :
    delsOf (mapDocWts f d) = delsOf d := by
  show delsOf ⟨d.paras.map _, _, _, _⟩ = delsOf ⟨d.paras, _, _, _⟩
  exact delsOf_mapParas (fun p => delsOfBlocks_map_of (fun b => by
    cases b <;> rfl) p) _ _ _ _

theorem delsOf_setWtVal (d : Doc) (nid : Nat) (v : Str) :
    delsOf (setWtVal d nid v) = delsOf d :=
  delsOf_mapDocWts _ d

theorem delsOf_preserve (d : Doc) (nid : Nat) :
    delsOf (set_xml_space_preserve d nid) = delsOf d :=
  delsOf_mapDocWts _ d

theorem delsOf_removeWt (d : Doc) (nid : Nat) :
    delsOf (removeWt d nid) = delsOf d := by
  show delsOf ⟨d.paras.map _, _, _, _⟩ = delsOf ⟨d.paras, _, _, _⟩
  exact delsOf_mapParas (fun p => delsOfBlocks_map_of (fun b => by
    cases b <;> rfl) p) _ _ _ _

theorem delsOfBlocks_removeRun (rid : Nat) (bs : List Block) :
    delsOfBlocks (removeRunInBlocks rid bs) = delsOfBlocks bs := by
  induction bs with
  | nil => rfl
  | cons b t ih =>
    cases b with
    | run r =>
      by_cases h : r.rid == rid <;>
        simp [removeRunInBlocks, h, delsOfBlocks, delOfBlock, List.filterMap_cons] at * <;>
        exact ih
    | ins e => simpa [removeRunInBlocks, delsOfBlocks, delOfBlock, List.filterMap_cons] using ih
    | del e => simpa [removeRunInBlocks, delsOfBlocks, delOfBlock, List.filterMap_cons] using ih
    | marker => simpa [removeRunInBlocks, delsOfBlocks, delOfBlock, List.filterMap_cons] using ih

theorem delsOf_removeRun (d : Doc) (rid : Nat) :
    delsOf (removeRun d rid) = delsOf d := by
  show delsOf ⟨d.paras.map _, _, _, _⟩ = delsOf ⟨d.paras, _, _, _⟩
  exact delsOf_mapParas (delsOfBlocks_removeRun rid) _ _ _ _

theorem delsOfBlocks_filter_ins (q : Env → Bool) (bs : List Block) :
    delsOfBlocks (bs.filter (fun b =>
      match b with
      | .ins e => q e
      | _ => true)) = delsOfBlocks bs := by
  induction bs with
  | nil => rfl
  | cons b t ih =>
    cases b with
    | ins e =>
      by_cases h : q e <;>
        simp [List.filter_cons, h, delsOfBlocks, delOfBlock, List.filterMap_cons] at * <;>
        exact ih
    | run r => simpa [List.filter_cons, delsOfBlocks, delOfBlock, List.filterMap_cons] using ih
    | del e => simpa [List.filter_cons, delsOfBlocks, delOfBlock, List.filterMap_cons] using ih
    | marker => simpa [List.filter_cons, delsOfBlocks, delOfBlock, List.filterMap_cons] using ih

theorem delsOf_removeInsEnv (d : Doc) (eid : Nat) :
    delsOf (removeInsEnv d eid) = delsOf d := by
  show delsOf ⟨d.paras.map _, _, _, _⟩ = delsOf ⟨d.paras, _, _, _⟩
  exact delsOf_mapParas (fun p => delsOfBlocks_filter_ins _ p) _ _ _ _

theorem delsOf_insertRunsFrontOfIns (eid : Nat) (rs : List Run) (d : Doc) :
    delsOf (insertRunsFrontOfIns eid rs d) = delsOf d := by
  show delsOf ⟨d.paras.map _, _, _, _⟩ = delsOf ⟨d.paras, _, _, _⟩
  refine delsOf_mapParas (fun p => delsOfBlocks_map_of (fun b => ?_) p) _ _ _ _
  cases b with
  | ins e => by_cases h : e.eid == eid <;> simp [h, delOfBlock]
  | run r => rfl
  | del e => rfl
  | marker => rfl

theorem delsOfBlocks_insertAfterIns (eid : Nat) (frag : List Block)
    (h : delsOfBlocks frag = []) (bs : List Block) :
    delsOfBlocks (insertAfterInsInBlocks eid frag bs) = delsOfBlocks bs := by
  have h2 : List.filterMap delOfBlock frag = [] := h
  induction bs with
  | nil => rfl
  | cons b t ih =>
    cases b with
    | ins e =>
      by_cases he : e.eid == eid <;>
        simp [insertAfterInsInBlocks, he, delsOfBlocks, delOfBlock,
          List.filterMap_cons, List.filterMap_append, h2] at * <;>
        exact ih
    | run r => simpa [insertAfterInsInBlocks, delsOfBlocks, delOfBlock, List.filterMap_cons] using ih
    | del e => simpa [insertAfterInsInBlocks, delsOfBlocks, delOfBlock, List.filterMap_cons] using ih
    | marker => simpa [insertAfterInsInBlocks, delsOfBlocks, delOfBlock, List.filterMap_cons] using ih

theorem delsOfBlocks_insertBesideRun (after : Bool) (rid : Nat) (frag : List Block)
    (h : delsOfBlocks frag = []) (bs : List Block) :
    delsOfBlocks (insertBesideRunInBlocks after rid frag bs) = delsOfBlocks bs := by
  have h2 : List.filterMap delOfBlock frag = [] := h
  induction bs with
  | nil => rfl
  | cons b t ih =>
    cases b with
    | run r =>
      by_cases hr : r.rid == rid
      · cases after <;>
          simp [insertBesideRunInBlocks, hr, delsOfBlocks, delOfBlock,
            List.filterMap_cons, List.filterMap_append, h2] at * <;>
          exact ih
      · simpa [insertBesideRunInBlocks, hr, delsOfBlocks, delOfBlock, List.filterMap_cons] using ih
    | ins e =>
      by_cases he : envHasRun rid e
      · by_cases ha : allRunBlocks frag
        · simpa [insertBesideRunInBlocks, he, ha, delsOfBlocks, delOfBlock, List.filterMap_cons] using ih
        · cases after <;>
            simp [insertBesideRunInBlocks, he, ha, delsOfBlocks, delOfBlock,
              List.filterMap_cons, List.filterMap_append, h2] at * <;>
            exact ih
      · simpa [insertBesideRunInBlocks, he, delsOfBlocks, delOfBlock, List.filterMap_cons] using ih
    | del e => simpa [insertBesideRunInBlocks, delsOfBlocks, delOfBlock, List.filterMap_cons] using ih
    | marker => simpa [insertBesideRunInBlocks, delsOfBlocks, delOfBlock, List.filterMap_cons] using ih

theorem delsOfBlocks_replaceRun (rid : Nat) (frag : List Block)
    (h : delsOfBlocks frag = []) (bs : List Block) :
    delsOfBlocks (replaceRunInBlocks rid frag bs) = delsOfBlocks bs := by
  have h2 : List.filterMap delOfBlock frag = [] := h
  induction bs with
  | nil => rfl
  | cons b t ih =>
    cases b with
    | run r =>
      by_cases hr : r.rid == rid <;>
        simp [replaceRunInBlocks, hr, delsOfBlocks, delOfBlock,
          List.filterMap_cons, List.filterMap_append, h2] at * <;>
        exact ih
    | ins e =>
      by_cases he : envHasRun rid e <;>
        simpa [replaceRunInBlocks, he, delsOfBlocks, delOfBlock, List.filterMap_cons] using ih
    | del e => simpa [replaceRunInBlocks, delsOfBlocks, delOfBlock, List.filterMap_cons] using ih
    | marker => simpa [replaceRunInBlocks, delsOfBlocks, delOfBlock, List.filterMap_cons] using ih

theorem delsOfBlocks_cons (b : Block) (bs : List Block) :
    delsOfBlocks (b :: bs) = (delOfBlock b).toList ++ delsOfBlocks bs := by
  unfold delsOfBlocks
  rw [List.filterMap_cons]
  cases delOfBlock b <;> rfl

theorem delsOfBlocks_insertBeforeBlockIn (target : Block) (frag : List Block)
    (h : delsOfBlocks frag = []) (bs : List Block) :
    delsOfBlocks (insertBeforeBlockIn target frag bs) = delsOfBlocks bs := by
  induction bs with
  | nil => rfl
  | cons b t ih =>
    by_cases hb : sameBlockNode target b
    · rw [show insertBeforeBlockIn target frag (b :: t) =
            frag ++ b :: insertBeforeBlockIn target frag t by
          simp [insertBeforeBlockIn, hb]]
      rw [delsOfBlocks_append, h, List.nil_append, delsOfBlocks_cons,
        delsOfBlocks_cons, ih]
    · rw [show insertBeforeBlockIn target frag (b :: t) =
            b :: insertBeforeBlockIn target frag t by
          simp [insertBeforeBlockIn, hb]]
      rw [delsOfBlocks_cons, delsOfBlocks_cons, ih]

theorem stampBlocks_no_dels (a t : Str) :
    ∀ (n : Nat) (frag : List Block), delsOfBlocks frag = [] →
      delsOfBlocks (stampBlocks a t n frag).1 = [] := by
  intro n frag
  induction frag generalizing n with
  | nil => intro _; rfl
  | cons b bs ih =>
    intro h
    rw [delsOfBlocks_cons] at h
    cases b with
    | del e => simp [delOfBlock] at h
    | ins e =>
      simp only [delOfBlock, Option.toList, List.nil_append] at h
      simp only [stampBlocks]
      rw [delsOfBlocks_cons]
      simp only [delOfBlock, Option.toList, List.nil_append]
      exact ih _ h
    | run r =>
      simp only [delOfBlock, Option.toList, List.nil_append] at h
      simp only [stampBlocks]
      rw [delsOfBlocks_cons]
      simp only [delOfBlock, Option.toList, List.nil_append]
      exact ih _ h
    | marker =>
      simp only [delOfBlock, Option.toList, List.nil_append] at h
      simp only [stampBlocks]
      rw [delsOfBlocks_cons]
      simp only [delOfBlock, Option.toList, List.nil_append]
      exact ih _ h

theorem delsOf_paras_eq (d : Doc) (ps : List Para) (n : Nat) (a t : Str)
    (h : (ps.map delsOfBlocks).flatten = delsOf d) :
    delsOf (⟨ps, n, a, t⟩ : Doc) = delsOf d := h

theorem delsOf_insert_before_run (d : Doc) (rid : Nat) (frag : List Block)
    (h : delsOfBlocks frag = []) :
    delsOf (insert_before_run d rid frag).2 = delsOf d := by
  have hs : delsOfBlocks (parse_fragment d frag).1 = [] :=
    stampBlocks_no_dels d.author d.date d.nextId frag h
  exact delsOf_mapParas (fun p => delsOfBlocks_insertBesideRun _ _ _ hs p) d.paras _ _ _

theorem delsOf_insert_after_run (d : Doc) (rid : Nat) (frag : List Block)
    (h : delsOfBlocks frag = []) :
    delsOf (insert_after_run d rid frag).2 = delsOf d := by
  have hs : delsOfBlocks (parse_fragment d frag).1 = [] :=
    stampBlocks_no_dels d.author d.date d.nextId frag h
  exact delsOf_mapParas (fun p => delsOfBlocks_insertBesideRun _ _ _ hs p) d.paras _ _ _

theorem delsOf_insert_after_ins (d : Doc) (eid : Nat) (frag : List Block)
    (h : delsOfBlocks frag = []) :
    delsOf (insert_after_ins d eid frag).2 = delsOf d := by
  have hs : delsOfBlocks (parse_fragment d frag).1 = [] :=
    stampBlocks_no_dels d.author d.date d.nextId frag h
  exact delsOf_mapParas (fun p => delsOfBlocks_insertAfterIns _ _ hs p) d.paras _ _ _

theorem delsOf_replace_node (d : Doc) (rid : Nat) (frag : List Block)
    (h : delsOfBlocks frag = []) :
    delsOf (replace_node d rid frag).2 = delsOf d := by
  have hs : delsOfBlocks (parse_fragment d frag).1 = [] :=
    stampBlocks_no_dels d.author d.date d.nextId frag h
  exact delsOf_mapParas (fun p => delsOfBlocks_replaceRun _ _ hs p) d.paras _ _ _

theorem flatten_map_set_append (frag : List Block) (h : delsOfBlocks frag = []) :
    ∀ (ps : List Para) (i : Nat),
      ((ps.set i (ps.getD i [] ++ frag)).map delsOfBlocks).flatten =
        (ps.map delsOfBlocks).flatten := by
  intro ps
  induction ps with
  | nil => intro i; rfl
  | cons p t ih =>
    intro i
    cases i with
    | zero => simp [delsOfBlocks_append, h]
    | succ j =>
      rw [List.getD_cons_succ, List.set_cons_succ, List.map_cons, List.flatten_cons,
        List.map_cons, List.flatten_cons, ih j]

theorem delsOf_insertAtSavedSpot (d : Doc) (i : Nat) (next : Option Block)
    (frag : List Block) (h : delsOfBlocks frag = []) :
    delsOf (insertAtSavedSpot d i next frag) = delsOf d := by
  cases next with
  | some target =>
    exact delsOf_mapParas (fun p => delsOfBlocks_insertBeforeBlockIn _ _ h p) d.paras _ _ _
  | none => exact flatten_map_set_append frag h d.paras i

theorem delsOf_foldl {α : Type} {step : Doc → α → Doc}
    (h : ∀ dd x, delsOf (step dd x) = delsOf dd) :
    ∀ (l : List α) (d : Doc), delsOf (l.foldl step d) = delsOf d := by
  intro l
  induction l with
  | nil => intro d; rfl
  | cons x t ih =>
    intro d
    rw [List.foldl_cons, ih, h]

theorem delsOf_removeRunIfEmpty (d : Doc) (rid : Nat) :
    delsOf (removeRunIfEmpty d rid) = delsOf d := by
  unfold removeRunIfEmpty
  split
  · split
    · exact delsOf_removeRun d rid
    · rfl
  · rfl

theorem delsOf_remove_wt_and_maybe_run (d : Doc) (nid : Nat) :
    delsOf (remove_wt_and_maybe_run d nid) = delsOf d := by
  unfold remove_wt_and_maybe_run
  split
  · rfl
  · exact Eq.trans (delsOf_removeRunIfEmpty _ _) (delsOf_removeWt d nid)

theorem delsOf_remove_from_insertion (d : Doc) (ps : List Pos) :
    delsOf (remove_from_insertion d ps) = delsOf d := by
  unfold remove_from_insertion
  split
  · rfl
  · dsimp only
    split
    · split
      · exact delsOf_removeInsEnv _ _
      · rfl
    · split
      · split
        · split
          · split
            · exact delsOf_removeInsEnv _ _
            · split
              · exact Eq.trans (delsOf_removeRunIfEmpty _ _) (delsOf_removeWt _ _)
              · exact delsOf_removeWt _ _
          · rfl
        · split
          · exact delsOf_setWtVal _ _ _
          · split
            · exact delsOf_setWtVal _ _ _
            · split
              · exact Eq.trans (delsOf_insert_after_ins _ _ _ rfl) (delsOf_setWtVal _ _ _)
              · exact delsOf_setWtVal _ _ _
      · refine Eq.trans (delsOf_foldl (fun dd g => ?_) _ _) ?_
        · split
          · exact delsOf_remove_wt_and_maybe_run _ _
          · rfl
        · split
          · rw [delsOf_preserve, delsOf_setWtVal]
            split
            · rw [delsOf_preserve, delsOf_setWtVal]
            · exact delsOf_remove_wt_and_maybe_run _ _
          · rw [delsOf_remove_wt_and_maybe_run]
            split
            · rw [delsOf_preserve, delsOf_setWtVal]
            · exact delsOf_remove_wt_and_maybe_run _ _

theorem spansOf_all_inside (ps : List Pos)
    (h : ps.all (fun p => p.insideIns) = true) : spansOf ps = false := by
  cases ps with
  | nil => rfl
  | cons p t =>
    simp only [List.all_cons, Bool.and_eq_true, List.all_eq_true] at h
    simp only [spansOf, List.any_eq_false]
    intro q hq
    simp [h.1, h.2 q hq]

theorem find_across_ok_some (d : Doc) (q : Str) (occ : Nat) (m : Match)
    (h : find_across_boundaries d q occ = .ok (some m)) :
    m.spans = spansOf m.positions := by
  unfold find_across_boundaries at h
  split at h
  · exact absurd h (by simp)
  · simp only [Except.ok.injEq] at h
    have hm : m ∈ allParaMatches d q := by
      have := List.getElem?_eq_some_iff.mp h
      obtain ⟨hlt, he⟩ := this
      exact he ▸ List.getElem_mem hlt
    unfold allParaMatches at hm
    rw [List.mem_flatten] at hm
    obtain ⟨l, hl, hml⟩ := hm
    rw [List.mem_map] at hl
    obtain ⟨p, hp, rfl⟩ := hl
    simp only [List.mem_map] at hml
    obtain ⟨s, hs, rfl⟩ := hml
    rfl

theorem resolve_cross_find (d : Doc) (q : Str) (occ : Nat) (m : Match)
    (h : resolve_simple_or_cross d q occ = .cross m) :
    find_across_boundaries d q occ = .ok (some m) := by
  unfold resolve_simple_or_cross at h
  split at h
  · split at h <;> simp_all
  · split at h
    · simp at h
    · split at h
      · simp at h
      · split at h
        · split at h <;> simp_all
        · simp at h

theorem resolve_insert_cross_find (d : Doc) (q : Str) (occ : Nat) (m : Match)
    (h : resolve_insert_text d q occ = .cross m) :
    find_across_boundaries d q occ = .ok (some m) := by
  unfold resolve_insert_text at h
  split at h
  · split at h <;> simp_all
  · split at h
    · simp at h
    · split at h
      · simp at h
      · split at h
        · simp at h
        · split at h
          · split at h <;> simp_all
          · simp at h

theorem delsOf_replace_same_context_inside (d : Doc) (m : Match) (rw : Str)
    (h : m.positions.all (fun p => p.insideIns) = true) :
    delsOf (replace_same_context d m rw).2 = delsOf d := by
  unfold replace_same_context
  dsimp only
  split
  · rfl
  · split
    · split
      · rfl
      · try dsimp only
        split
        · split
          · try dsimp only
            exact (delsOf_insertRunsFrontOfIns _ _ _).trans
              ((delsOf_nextId _ _).trans (delsOf_remove_from_insertion d m.positions))
          · try dsimp only
            exact (delsOf_insertAtSavedSpot _ _ _ _ (by rfl)).trans
              ((delsOf_nextId _ _).trans (delsOf_remove_from_insertion d m.positions))
        · try dsimp only
          exact delsOf_remove_from_insertion d m.positions
    · simp_all

theorem delsOf_delete_same_context_inside (d : Doc) (m : Match)
    (h : m.positions.all (fun p => p.insideIns) = true) :
    delsOf (delete_same_context d m).2 = delsOf d := by
  unfold delete_same_context
  dsimp only
  split
  · rfl
  · split
    · exact delsOf_remove_from_insertion d m.positions
    · simp_all

theorem delsOf_insert_near_match (d : Doc) (m : Match) (text : Str) (side : Bool) :
    delsOf (insert_near_match d m text side).2 = delsOf d := by
  unfold insert_near_match
  split
  · rfl
  · dsimp only
    split
    · rfl
    · split
      · dsimp only
        split
        · exact delsOf_insert_before_run _ _ _ rfl
        · exact delsOf_insert_after_run _ _ _ rfl
      · dsimp only
        split
        · exact delsOf_insert_before_run _ _ _ rfl
        · exact delsOf_insert_after_run _ _ _ rfl

theorem delsOf_insert_text_fast (d : Doc) (wt : Wt) (run : Run)
    (insAnc : Option Env) (aIdx : Nat) (anchor text : Str) (side : Bool) :
    delsOf (insert_text_fast d wt run insAnc aIdx anchor text side).2 = delsOf d := by
  unfold insert_text_fast
  split
  · exact (delsOf_preserve _ _).trans (delsOf_setWtVal _ _ _)
  · dsimp only
    refine delsOf_replace_node _ _ _ ?_
    rw [delsOfBlocks_append, delsOfBlocks_append]
    have h1 : ∀ (c : Prop) [Decidable c] (r : Option Str) (v : Str),
        delsOfBlocks (if c then [mkRunBlock r v] else []) = [] := by
      intro c _ r v; split <;> rfl
    rw [h1, h1]
    have h2 : delsOfBlocks
        (if side then [mkInsBlock run.rPr text, mkRunBlock run.rPr anchor]
         else [mkRunBlock run.rPr anchor, mkInsBlock run.rPr text]) = [] := by
      split <;> rfl
    rw [h2]
    rfl

theorem delsOf_insert_text (d : Doc) (anchor text : Str) (side : Bool) (occ : Nat) :
    delsOf (insert_text d anchor text side occ).2 = delsOf d := by
  unfold insert_text
  split
  · rfl
  · dsimp only
    exact delsOf_insert_text_fast _ _ _ _ _ _ _ _
  · dsimp only
    exact delsOf_insert_near_match _ _ _ _

/-- Whether the resolved match of an operation lies entirely inside an
insertion envelope: on the fast path, the leaf's run has a `w:ins`
ancestor; on the cross-boundary path, every matched position has
`is_inside_ins` set. -/
def resolvedInsideIns : ResolveOut → Bool
  | .err _ => false
  | .fast _ _ insAnc _ => insAnc.isSome
  | .cross m => m.positions.all (fun p => p.insideIns)

theorem delsOf_replace_text_fast_ins (d : Doc) (wt : Wt) (run : Run) (e : Env)
    (s : Nat) (find rw : Str) :
    delsOf (replace_text_fast d wt run (some e) s find rw).2 = delsOf d := by
  unfold replace_text_fast
  rw [if_pos (by simp)]
  exact (delsOf_preserve _ _).trans (delsOf_setWtVal _ _ _)

theorem delsOf_suggest_deletion_fast_ins (d : Doc) (wt : Wt) (run : Run) (e : Env)
    (s : Nat) (text : Str) :
    delsOf (suggest_deletion_fast d wt run (some e) s text).2 = delsOf d := by
  unfold suggest_deletion_fast
  dsimp only
  split
  · exact (delsOf_preserve _ _).trans (delsOf_setWtVal _ _ _)
  · split
    · exact delsOf_removeInsEnv _ _
    · exact (delsOf_removeRunIfEmpty _ _).trans (delsOf_removeWt _ _)

/-- C1: for every mutating operation (replace, delete, insert_before,
insert_after) whose resolved match lies entirely inside an
InsertionEnvelope (every matched Position has `is_inside_ins` true, or on
the fast path the leaf's run has a `w:ins` ancestor), no DeletionEnvelope
is emitted: the list of `w:del` elements of the document after the call
equals the list before the call.  For the insert operations this holds
unconditionally, since they never emit deletion envelopes at all. -/
theorem C1_inside_insertion_preserves_deletions :
    (∀ (d : Doc) (q rw : Str) (occ : Nat),
        resolvedInsideIns (resolve_simple_or_cross d q occ) = true →
        delsOf (replace_text d q rw occ).2 = delsOf d) ∧
    (∀ (d : Doc) (q : Str) (occ : Nat),
        resolvedInsideIns (resolve_simple_or_cross d q occ) = true →
        delsOf (suggest_deletion d q occ).2 = delsOf d) ∧
    (∀ (d : Doc) (anchor text : Str) (occ : Nat),
        delsOf (insert_text_before d anchor text occ).2 = delsOf d) ∧
    (∀ (d : Doc) (anchor text : Str) (occ : Nat),
        delsOf (insert_text_after d anchor text occ).2 = delsOf d) := by
  refine ⟨?_, ?_, ?_, ?_⟩
  · intro d q rw occ h
    unfold replace_text
    cases hr : resolve_simple_or_cross d q occ with
    | err e => rfl
    | fast wt run insAnc s =>
      rw [hr] at h
      dsimp only
      cases insAnc with
      | none => simp [resolvedInsideIns] at h
      | some e => exact delsOf_replace_text_fast_ins d wt run e s q rw
    | cross m =>
      rw [hr] at h
      dsimp only
      have hin : m.positions.all (fun p => p.insideIns) = true := h
      unfold replace_across_nodes
      rw [find_across_ok_some d q occ m (resolve_cross_find d q occ m hr),
        spansOf_all_inside _ hin, if_neg Bool.false_ne_true]
      exact delsOf_replace_same_context_inside d m rw hin
  · intro d q occ h
    unfold suggest_deletion
    cases hr : resolve_simple_or_cross d q occ with
    | err e => rfl
    | fast wt run insAnc s =>
      rw [hr] at h
      dsimp only
      cases insAnc with
      | none => simp [resolvedInsideIns] at h
      | some e => exact delsOf_suggest_deletion_fast_ins d wt run e s q
    | cross m =>
      rw [hr] at h
      dsimp only
      have hin : m.positions.all (fun p => p.insideIns) = true := h
      unfold delete_across_nodes
      rw [find_across_ok_some d q occ m (resolve_cross_find d q occ m hr),
        spansOf_all_inside _ hin, if_neg Bool.false_ne_true]
      exact delsOf_delete_same_context_inside d m hin
  · intro d anchor text occ
    exact delsOf_insert_text d anchor text true occ
  · intro d anchor text occ
    exact delsOf_insert_text d anchor text false occ

/-- A concrete document with an insertion envelope (holding `x`) and an
unrelated deletion envelope (holding `z`). -/
def c1WitnessDoc : Doc :=
  ⟨[[Block.ins ⟨2, 1, ['a'], ['d'], [⟨3, none, none, none, [⟨11, ['x'], false⟩]⟩]⟩,
     Block.del ⟨4, 2, ['a'], ['d'], [⟨5, none, none, none, [⟨12, ['z'], false⟩]⟩]⟩]],
   100, ['u'], ['t']⟩

/-- Witness for C1: replacing the text `x` that lies inside the insertion
envelope leaves the document's deletion envelopes unchanged. -/
theorem C1_witness :
    resolvedInsideIns (resolve_simple_or_cross c1WitnessDoc ['x'] 0) = true ∧
    delsOf (replace_text c1WitnessDoc ['x'] ['y'] 0).2 = delsOf c1WitnessDoc :=
  ⟨by decide,
   C1_inside_insertion_preserves_deletions.1 c1WitnessDoc ['x'] ['y'] 0 (by decide)⟩

/-- C3: whenever a mutating operation (replace, delete, insert_before,
insert_after) returns an error, the document tree after the raise is the
tree before the call: every error is raised during pre-mutation
resolution, before any splice or in-place edit. -/
theorem C3_error_leaves_tree_unchanged :
    (∀ (d : Doc) (q rw : Str) (occ : Nat) (e : Err),
        (replace_text d q rw occ).1 = .error e → (replace_text d q rw occ).2 = d) ∧
    (∀ (d : Doc) (q : Str) (occ : Nat) (e : Err),
        (suggest_deletion d q occ).1 = .error e → (suggest_deletion d q occ).2 = d) ∧
    (∀ (d : Doc) (a t : Str) (occ : Nat) (e : Err),
        (insert_text_before d a t occ).1 = .error e →
          (insert_text_before d a t occ).2 = d) ∧
    (∀ (d : Doc) (a t : Str) (occ : Nat) (e : Err),
        (insert_text_after d a t occ).1 = .error e →
          (insert_text_after d a t occ).2 = d) := by
  refine ⟨?_, ?_, ?_, ?_⟩
  · intro d q rw occ e h
    unfold replace_text at h ⊢
    cases hr : resolve_simple_or_cross d q occ <;> rw [hr] at h <;> simp_all
  · intro d q occ e h
    unfold suggest_deletion at h ⊢
    cases hr : resolve_simple_or_cross d q occ <;> rw [hr] at h <;> simp_all
  · intro d a t occ e h
    unfold insert_text_before insert_text at h ⊢
    cases hr : resolve_insert_text d a occ <;> rw [hr] at h <;> simp_all
  · intro d a t occ e h
    unfold insert_text_after insert_text at h ⊢
    cases hr : resolve_insert_text d a occ <;> rw [hr] at h <;> simp_all

theorem listFindSub_isPrefix : ∀ (hay q : Str) (i : Nat),
    listFindSub hay q = some i → q.isPrefixOf (hay.drop i) = true := by
  intro hay
  induction hay with
  | nil =>
    intro q i h
    unfold listFindSub at h
    by_cases hp : q.isPrefixOf ([] : Str) = true
    · rw [if_pos hp] at h; cases h; simpa using hp
    · rw [if_neg hp] at h; simp at h
  | cons c t ih =>
    intro q i h
    unfold listFindSub at h
    by_cases hp : q.isPrefixOf (c :: t) = true
    · rw [if_pos hp] at h; cases h; simpa using hp
    · rw [if_neg hp] at h
      simp only [Option.map_eq_some'] at h
      obtain ⟨j, hj, rfl⟩ := h
      simpa using ih q j hj

theorem listFindSub_decomp (hay q : Str) (s : Nat)
    (h : listFindSub hay q = some s) :
    hay = hay.take s ++ q ++ hay.drop (s + q.length) := by
  have hp := listFindSub_isPrefix hay q s h
  rw [List.isPrefixOf_iff_prefix] at hp
  obtain ⟨t, ht⟩ := hp
  have htt : hay.drop (s + q.length) = t := by
    rw [← List.drop_drop, ← ht, List.drop_left]
  calc hay = hay.take s ++ hay.drop s := (List.take_append_drop s hay).symm
    _ = hay.take s ++ (q ++ t) := by rw [ht]
    _ = hay.take s ++ q ++ t := by rw [List.append_assoc]
    _ = hay.take s ++ q ++ hay.drop (s + q.length) := by rw [htt]

/-- Inversion of the shared fast-path resolution: a `.fast` result records
the leaf found by the fast search, its context, and the in-leaf offset. -/
theorem resolve_fast_inv (d : Doc) (q : Str) (occ : Nat) (wt : Wt) (run : Run)
    (insAnc : Option Env) (s : Nat)
    (h : resolve_simple_or_cross d q occ = .fast wt run insAnc s) :
    get_nth_match d q occ = .ok wt ∧ findWtCtx d wt.nid = some (run, insAnc) ∧
      listFindSub wt.val q = some s := by
  unfold resolve_simple_or_cross at h
  cases hg : get_nth_match d q occ with
  | error e =>
    rw [hg] at h
    dsimp only at h
    split at h <;> simp_all
  | ok wt0 =>
    rw [hg] at h
    dsimp only at h
    cases hc : findWtCtx d wt0.nid with
    | none => rw [hc] at h; simp at h
    | some c =>
      obtain ⟨run0, ins0⟩ := c
      rw [hc] at h
      dsimp only at h
      cases hf : listFindSub wt0.val q with
      | none => rw [hf] at h; simp at h
      | some s0 =>
        rw [hf] at h
        dsimp only at h
        split at h
        · split at h
          · simp at h
          · simp at h
          · cases h; refine ⟨?_, ?_, ?_⟩ <;> simp_all
        · cases h; refine ⟨?_, ?_, ?_⟩ <;> simp_all

/-- C2: a replace whose match lies wholly within the single TextSpan of a
Run outside any InsertionEnvelope replaces the Run in place by
`[Run(P, before)?, DeletionEnvelope[Run(P, find)], InsertionEnvelope[Run(P, new)],
Run(P, after)?]` (empty pieces omitted, the source Run's property block `P`
reproduced verbatim, envelope ids sequential), and returns the id of the
new insertion envelope. -/
theorem C2_replace_simple_path (d : Doc) (q rw : Str) (occ : Nat)
    (wt : Wt) (run : Run) (s : Nat)
    (h1 : resolve_simple_or_cross d q occ = .fast wt run none s)
    (h2 : run.wts = [wt]) :
    wt.val = wt.val.take s ++ q ++ wt.val.drop (s + q.length) ∧
    replace_text d q rw occ =
      (.ok ((d.nextId + 1 : Nat) : Int),
       ⟨d.paras.map (replaceRunInBlocks run.rid
          ((if wt.val.take s ≠ [] then [mkRunBlock run.rPr (wt.val.take s)] else [])
            ++ [Block.del ⟨0, (d.nextId : Int), d.author, d.date, [mkRun run.rPr q]⟩,
                Block.ins ⟨0, ((d.nextId + 1 : Nat) : Int), d.author, d.date,
                  [mkRun run.rPr rw]⟩]
            ++ (if wt.val.drop (s + q.length) ≠ [] then
                  [mkRunBlock run.rPr (wt.val.drop (s + q.length))] else []))),
        d.nextId + 2, d.author, d.date⟩) := by
  obtain ⟨hg, hc, hf⟩ := resolve_fast_inv d q occ wt run none s h1
  refine ⟨listFindSub_decomp wt.val q s hf, ?_⟩
  by_cases hb : wt.val.take s = [] <;> by_cases ha : wt.val.drop (s + q.length) = [] <;>
    simp [replace_text, h1, replace_text_fast, replace_node, parse_fragment,
      stampBlocks, firstInsWid, hb, ha, mkDelBlock, mkInsBlock, mkRunBlock]

/-- A document with a single-TextSpan run holding `xFy`, with a property
block `P`, outside any envelope. -/
def c2WitnessDoc : Doc :=
  ⟨[[Block.run ⟨1, some ['P'], none, none, [⟨10, ['x', 'F', 'y'], false⟩]⟩]],
   100, ['u'], ['t']⟩

/-- Witness for C2: replacing `F` by `N` in the run above emits
`[Run(P, x), DeletionEnvelope(id 100)[Run(P, F)],
InsertionEnvelope(id 101)[Run(P, N)], Run(P, y)]` and returns 101. -/
theorem C2_witness :
    (⟨10, ['x', 'F', 'y'], false⟩ : Wt).val =
      (['x', 'F', 'y'] : Str).take 1 ++ ['F'] ++ (['x', 'F', 'y'] : Str).drop (1 + 1) ∧
    replace_text c2WitnessDoc ['F'] ['N'] 0 =
      (.ok ((100 + 1 : Nat) : Int),
       ⟨c2WitnessDoc.paras.map (replaceRunInBlocks 1
          ((if (['x', 'F', 'y'] : Str).take 1 ≠ [] then
              [mkRunBlock (some ['P']) ((['x', 'F', 'y'] : Str).take 1)] else [])
            ++ [Block.del ⟨0, (100 : Int), ['u'], ['t'], [mkRun (some ['P']) ['F']]⟩,
                Block.ins ⟨0, ((100 + 1 : Nat) : Int), ['u'], ['t'],
                  [mkRun (some ['P']) ['N']]⟩]
            ++ (if (['x', 'F', 'y'] : Str).drop (1 + 1) ≠ [] then
                  [mkRunBlock (some ['P']) ((['x', 'F', 'y'] : Str).drop (1 + 1))]
                else []))),
        100 + 2, ['u'], ['t']⟩) :=
  C2_replace_simple_path c2WitnessDoc ['F'] ['N'] 0 ⟨10, ['x', 'F', 'y'], false⟩
    ⟨1, some ['P'], none, none, [⟨10, ['x', 'F', 'y'], false⟩]⟩ 1 (by decide) rfl

/-- `findSome?` over a pointwise-rewritten list. -/
theorem findSome?_map_option {α β : Type} (g : α → α) (h : β → β)
    (f : α → Option β) (hc : ∀ a, f (g a) = (f a).map h) (l : List α) :
    (l.map g).findSome? f = (l.findSome? f).map h := by
  induction l with
  | nil => rfl
  | cons a t ih =>
    rw [List.map_cons, List.findSome?_cons, List.findSome?_cons, hc]
    cases f a <;> simp [ih]

theorem blockFind_removeWt (nid rid : Nat) (b : Block) :
    (match blockRemoveWt nid b with
     | Block.run r => if r.rid == rid then some r else none
     | Block.ins e => e.runs.find? (fun r => r.rid == rid)
     | _ => none) =
    ((match b with
      | Block.run r => if r.rid == rid then some r else none
      | Block.ins e => e.runs.find? (fun r => r.rid == rid)
      | _ => none) : Option Run).map (runRemoveWt nid) := by
  cases b with
  | run r => by_cases hr : r.rid == rid <;> simp [blockRemoveWt, runRemoveWt, hr]
  | ins e =>
    simp only [blockRemoveWt]
    rw [List.find?_map]
    have : ((fun (r : Run) => r.rid == rid) ∘ runRemoveWt nid) =
        (fun (r : Run) => r.rid == rid) := by
      funext r; rfl
    rw [this]
  | del e => rfl
  | marker => rfl

/-- Removing a `w:t` leaf rewrites every run in place; run lookup commutes
with the removal. -/
theorem findRun_removeWt (d : Doc) (nid : Nat) (rid : Nat) :
    findRun (removeWt d nid) rid = (findRun d rid).map (runRemoveWt nid) := by
  unfold findRun removeWt
  dsimp only
  exact findSome?_map_option _ _ _
    (fun p => findSome?_map_option _ _ _ (fun b => blockFind_removeWt nid rid b) p)
    d.paras

/-- C4: a delete whose match lies wholly within the single TextSpan of a
run inside an InsertionEnvelope shrinks the leaf to `before ++ after` and
stamps whitespace preservation; when that is empty, if the envelope holds
only this leaf the whole envelope is removed, otherwise the leaf and its
(now empty) run are removed; the call returns no fresh envelope id (-1). -/
theorem C4_delete_inside_insertion (d : Doc) (q : Str) (occ : Nat)
    (wt : Wt) (run : Run) (env : Env) (s : Nat)
    (h1 : resolve_simple_or_cross d q occ = .fast wt run (some env) s)
    (h2 : run.wts = [wt])
    (h3 : findRun d run.rid = some run) :
    wt.val = wt.val.take s ++ q ++ wt.val.drop (s + q.length) ∧
    suggest_deletion d q occ =
      (.ok (-1),
       if wt.val.take s ++ wt.val.drop (s + q.length) ≠ [] then
         set_xml_space_preserve
           (setWtVal d wt.nid (wt.val.take s ++ wt.val.drop (s + q.length))) wt.nid
       else if (get_wt_nodes_in_ancestor (some env)).length = 1 then
         removeInsEnv d env.eid
       else removeRun (removeWt d wt.nid) run.rid) := by
  obtain ⟨hg, hc, hf⟩ := resolve_fast_inv d q occ wt run (some env) s h1
  refine ⟨listFindSub_decomp wt.val q s hf, ?_⟩
  unfold suggest_deletion
  rw [h1]
  dsimp only
  unfold suggest_deletion_fast
  dsimp only
  split
  · rfl
  · split
    · rfl
    · have hfr : findRun (removeWt d wt.nid) run.rid =
          some (runRemoveWt wt.nid run) := by
        rw [findRun_removeWt, h3]; rfl
      have hempty : (runRemoveWt wt.nid run).wts = [] := by
        simp [runRemoveWt, h2]
      unfold removeRunIfEmpty
      rw [hfr]
      simp [hempty]

/-- A document with an insertion envelope holding a single run with the
single TextSpan `ab`, and a sibling run `z` outside the envelope. -/
def c4WitnessDoc : Doc :=
  ⟨[[Block.ins ⟨2, 1, ['a'], ['d'], [⟨3, none, none, none, [⟨11, ['a', 'b'], false⟩]⟩]⟩,
     Block.run ⟨4, none, none, none, [⟨12, ['z'], false⟩]⟩]], 100, ['u'], ['t']⟩

/-- Witness for C4: deleting `b` inside the insertion envelope shrinks the
leaf to `a` in place (with the whitespace-preservation flag) and returns
-1. -/
theorem C4_witness :
    (⟨11, ['a', 'b'], false⟩ : Wt).val =
      (['a', 'b'] : Str).take 1 ++ ['b'] ++ (['a', 'b'] : Str).drop (1 + 1) ∧
    suggest_deletion c4WitnessDoc ['b'] 0 =
      (.ok (-1),
       if (['a', 'b'] : Str).take 1 ++ (['a', 'b'] : Str).drop (1 + 1) ≠ [] then
         set_xml_space_preserve
           (setWtVal c4WitnessDoc 11
             ((['a', 'b'] : Str).take 1 ++ (['a', 'b'] : Str).drop (1 + 1))) 11
       else if (get_wt_nodes_in_ancestor
           (some ⟨2, 1, ['a'], ['d'],
             [⟨3, none, none, none, [⟨11, ['a', 'b'], false⟩]⟩]⟩)).length = 1 then
         removeInsEnv c4WitnessDoc 2
       else removeRun (removeWt c4WitnessDoc 11) 3) :=
  C4_delete_inside_insertion c4WitnessDoc ['b'] 0 ⟨11, ['a', 'b'], false⟩
    ⟨3, none, none, none, [⟨11, ['a', 'b'], false⟩]⟩
    ⟨2, 1, ['a'], ['d'], [⟨3, none, none, none, [⟨11, ['a', 'b'], false⟩]⟩]⟩ 1
    (by decide) rfl (by decide)

/-- The paragraph `[Ins[Run("Hello")]]`. -/
def c5Doc : Doc :=
  ⟨[[Block.ins ⟨2, 1, ['a'], ['d'],
      [⟨3, none, none, none, [⟨11, ['H', 'e', 'l', 'l', 'o'], false⟩]⟩]⟩]],
   100, ['u'], ['t']⟩

/-- C5 counterexample: with the anchor `Hello` inside an insertion
envelope, `insert_after` does not splice a bare Run at the requested side
of the anchor's Run as the claim states; on the single-leaf fast path it
merges the new text into the anchor's TextSpan in place — afterwards the
envelope still holds exactly one run, whose value is `HelloX`. -/
theorem C5_counterexample :
    insert_text_after c5Doc ['H', 'e', 'l', 'l', 'o'] ['X'] 0 =
      (.ok (-1),
       ⟨[[Block.ins ⟨2, 1, ['a'], ['d'],
           [⟨3, none, none, none,
             [⟨11, ['H', 'e', 'l', 'l', 'o', 'X'], true⟩]⟩]⟩]],
        100, ['u'], ['t']⟩) ∧
    ((insEnvs (insert_text_after c5Doc ['H', 'e', 'l', 'l', 'o'] ['X'] 0).2).map
      (fun e => e.runs.length)) = [1] :=
  ⟨rfl, rfl⟩

/-- C5 amended: an insert whose anchor lies inside an InsertionEnvelope
emits no new envelope and returns -1; on the single-leaf fast path the new
text is merged into the anchor's TextSpan in place (site C), while on the
cross-boundary path (every position inside an envelope, reference run
inside a `w:ins`) a bare Run is spliced at the requested side of the
reference run. -/
theorem C5_insert_inside_insertion (d : Doc) (anchor text : Str) (occ : Nat) :
    (∀ (wt : Wt) (run : Run) (env : Env) (aIdx : Nat) (side : Bool),
      resolve_insert_text d anchor occ = .fast wt run (some env) aIdx →
      insert_text d anchor text side occ =
        (.ok (-1),
         set_xml_space_preserve (setWtVal d wt.nid
           (if side then
              wt.val.take aIdx ++ text ++ anchor ++ wt.val.drop (aIdx + anchor.length)
            else
              wt.val.take aIdx ++ anchor ++ text ++ wt.val.drop (aIdx + anchor.length)))
           wt.nid)) ∧
    (∀ (m : Match) (pos0 : Pos) (rest : List Pos) (firstRun : Run) (e0 : Env),
      resolve_insert_text d anchor occ = .cross m →
      m.positions = pos0 :: rest →
      m.positions.all (fun p => p.insideIns) = true →
      findWtCtx d pos0.wtNid = some (firstRun, some e0) →
      insert_text d anchor text true occ =
        (.ok (-1),
         (insert_before_run d firstRun.rid [mkRunBlock firstRun.rPr text]).2)) ∧
    (∀ (m : Match) (pos0 : Pos) (rest : List Pos) (firstRun lastRun : Run)
        (oe0 : Option Env) (e1 : Env),
      resolve_insert_text d anchor occ = .cross m →
      m.positions = pos0 :: rest →
      m.positions.all (fun p => p.insideIns) = true →
      findWtCtx d pos0.wtNid = some (firstRun, oe0) →
      findWtCtx d (m.positions.getLastD pos0).wtNid = some (lastRun, some e1) →
      insert_text d anchor text false occ =
        (.ok (-1),
         (insert_after_run d lastRun.rid [mkRunBlock firstRun.rPr text]).2)) := by
  refine ⟨?_, ?_, ?_⟩
  · intro wt run env aIdx side h
    unfold insert_text
    rw [h]
    dsimp only
    unfold insert_text_fast
    rw [if_pos (show (some env).isSome = true from rfl)]
  · intro m pos0 rest firstRun e0 h hpos hall hfirst
    have hall2 : (pos0 :: rest).all (fun p => p.insideIns) = true := hpos ▸ hall
    unfold insert_text
    rw [h]
    dsimp only
    unfold insert_near_match
    rw [hpos]
    simp [hfirst, hall2]
  · intro m pos0 rest firstRun lastRun oe0 e1 h hpos hall hfirst hlast
    have hall2 : (pos0 :: rest).all (fun p => p.insideIns) = true := hpos ▸ hall
    have hlast2 : findWtCtx d ((pos0 :: rest).getLastD pos0).wtNid =
        some (lastRun, some e1) := hpos ▸ hlast
    rw [List.getLastD_eq_getLast?] at hlast2
    unfold insert_text
    rw [h]
    dsimp only
    unfold insert_near_match
    rw [hpos]
    simp [hfirst, hlast2, hall2]

/-- Witness for the amended C5 at the concrete document above: the
single-leaf fast path merges `X` after the anchor in place and returns
-1. -/
theorem C5_witness :
    resolve_insert_text c5Doc ['H', 'e', 'l', 'l', 'o'] 0 =
      .fast ⟨11, ['H', 'e', 'l', 'l', 'o'], false⟩
        ⟨3, none, none, none, [⟨11, ['H', 'e', 'l', 'l', 'o'], false⟩]⟩
        (some ⟨2, 1, ['a'], ['d'],
          [⟨3, none, none, none, [⟨11, ['H', 'e', 'l', 'l', 'o'], false⟩]⟩]⟩) 0 ∧
    insert_text c5Doc ['H', 'e', 'l', 'l', 'o'] ['X'] false 0 =
      (.ok (-1),
       set_xml_space_preserve (setWtVal c5Doc 11
         (if (false : Bool) then
            (['H', 'e', 'l', 'l', 'o'] : Str).take 0 ++ ['X'] ++
              ['H', 'e', 'l', 'l', 'o'] ++
              (['H', 'e', 'l', 'l', 'o'] : Str).drop (0 + 5)
          else
            (['H', 'e', 'l', 'l', 'o'] : Str).take 0 ++ ['H', 'e', 'l', 'l', 'o'] ++
              ['X'] ++ (['H', 'e', 'l', 'l', 'o'] : Str).drop (0 + 5))) 11) :=
  ⟨by decide,
   (C5_insert_inside_insertion c5Doc ['H', 'e', 'l', 'l', 'o'] ['X'] 0).1
     ⟨11, ['H', 'e', 'l', 'l', 'o'], false⟩
     ⟨3, none, none, none, [⟨11, ['H', 'e', 'l', 'l', 'o'], false⟩]⟩
     ⟨2, 1, ['a'], ['d'],
       [⟨3, none, none, none, [⟨11, ['H', 'e', 'l', 'l', 'o'], false⟩]⟩]⟩ 0 false
     (by decide)⟩

/-- A document whose only text is `z`. -/
def c3WitnessDoc : Doc :=
  ⟨[[Block.run ⟨1, none, none, none, [⟨10, ['z'], false⟩]⟩]], 100, ['u'], ['t']⟩

/- ### Empty queries (claim C7) -/

/-- A document with one single-span run holding `abc`. -/
def c7Doc : Doc :=
  ⟨[[Block.run ⟨1, none, none, none, [⟨10, ['a', 'b', 'c'], false⟩]⟩]],
   100, ['u'], ['t']⟩

/-- C7 counterexample: a replace with the empty string as query is not
rejected with an invalid-argument error — the fast leaf search matches the
first TextSpan (every string contains the empty string), the match is
taken at offset 0, and the document is mutated (an empty deletion plus the
insertion of `X` are emitted; the call returns the fresh insertion id). -/
theorem C7_counterexample :
    (replace_text c7Doc [] ['X'] 0).1 = .ok 101 ∧
    (replace_text c7Doc [] ['X'] 0).2 ≠ c7Doc :=
  ⟨rfl, by decide⟩

/-- C7 amended: only the text-map search path rejects empty queries:
`find_in_text_map` always does, and `count`/`find` therefore fail with
InvalidArgument on every document with at least one paragraph.  The
mutating operations perform no emptiness validation: whenever the fast
leaf search resolves an empty query (any document with a text span whose
run is a single-span run outside an insertion), they treat it as matching
at offset 0 and return an id instead of failing. -/
theorem C7_empty_query_validation :
    (∀ (tm : TextMap) (nth : Nat),
        find_in_text_map tm [] nth = .error .invalidArgument) ∧
    (∀ d : Doc, d.paras ≠ [] → count_matches d [] = .error .invalidArgument) ∧
    (∀ d : Doc, d.paras ≠ [] → find_text d [] = .error .invalidArgument) ∧
    (∀ (d : Doc) (rw : Str) (occ : Nat) (wt : Wt) (run : Run) (s : Nat),
        resolve_simple_or_cross d [] occ = .fast wt run none s →
        ∃ k : Int, (replace_text d [] rw occ).1 = .ok k) := by
  refine ⟨?_, ?_, ?_, ?_⟩
  · intro tm nth
    unfold find_in_text_map
    rw [if_pos rfl]
  · intro d hp
    unfold count_matches
    rw [if_pos ⟨rfl, hp⟩]
  · intro d hp
    unfold find_text find_across_boundaries
    rw [if_pos ⟨rfl, hp⟩]
  · intro d rw occ wt run s h
    refine ⟨(replace_text_fast d wt run none s [] rw).1, ?_⟩
    unfold replace_text
    rw [h]

/-- Witness for the amended C7: `count` on the concrete document rejects
the empty query, while the mutating replace proceeds and returns an id. -/
theorem C7_witness :
    count_matches c7Doc [] = .error .invalidArgument ∧
    (∃ k : Int, (replace_text c7Doc [] ['X'] 0).1 = .ok k) :=
  ⟨C7_empty_query_validation.2.1 c7Doc (by decide),
   C7_empty_query_validation.2.2.2 c7Doc ['X'] 0 ⟨10, ['a', 'b', 'c'], false⟩
     ⟨1, none, none, none, [⟨10, ['a', 'b', 'c'], false⟩]⟩ 0 (by decide)⟩

/- ### Revision ids (claims C8 and C10) -/

def blockWid : Block → Option Int
  | .ins e => some e.wid
  | .del e => some e.wid
  | _ => none

def widsOfBlocks (bs : List Block) : List Int :=
  bs.filterMap blockWid

/-- The `w:id`s of all revision envelopes, in document order. -/
def allWids (d : Doc) : List Int :=
  (d.paras.map widsOfBlocks).flatten

theorem scans_none_of_not_mem (i : Int) (bs : List Block)
    (h : i ∉ widsOfBlocks bs) :
    acceptInsInBlocks i bs = none ∧ removeDelInBlocks i bs = none ∧
      removeInsInBlocks i bs = none ∧ restoreDelInBlocks i bs = none := by
  induction bs with
  | nil => exact ⟨rfl, rfl, rfl, rfl⟩
  | cons b t ih =>
    cases b with
    | ins e =>
      have hw : e.wid ≠ i ∧ i ∉ widsOfBlocks t := by
        constructor
        · intro hcontra
          exact h (by simp [widsOfBlocks, List.filterMap_cons, blockWid, hcontra])
        · intro hcontra
          exact h (by simp [widsOfBlocks, List.filterMap_cons, blockWid]
                      at hcontra ⊢ <;> exact Or.inr hcontra)
      have ht := ih hw.2
      have hne : (e.wid == i) = false := by
        simp [hw.1]
      refine ⟨?_, ?_, ?_, ?_⟩ <;>
        simp [acceptInsInBlocks, removeDelInBlocks, removeInsInBlocks,
          restoreDelInBlocks, hne, ht.1, ht.2.1, ht.2.2.1, ht.2.2.2]
    | del e =>
      have hw : e.wid ≠ i ∧ i ∉ widsOfBlocks t := by
        constructor
        · intro hcontra
          exact h (by simp [widsOfBlocks, List.filterMap_cons, blockWid, hcontra])
        · intro hcontra
          exact h (by simp [widsOfBlocks, List.filterMap_cons, blockWid]
                      at hcontra ⊢ <;> exact Or.inr hcontra)
      have ht := ih hw.2
      have hne : (e.wid == i) = false := by
        simp [hw.1]
      refine ⟨?_, ?_, ?_, ?_⟩ <;>
        simp [acceptInsInBlocks, removeDelInBlocks, removeInsInBlocks,
          restoreDelInBlocks, hne, ht.1, ht.2.1, ht.2.2.1, ht.2.2.2]
    | run r =>
      have ht := ih (by
        intro hcontra
        exact h (by simpa [widsOfBlocks, List.filterMap_cons, blockWid] using hcontra))
      refine ⟨?_, ?_, ?_, ?_⟩ <;>
        simp [acceptInsInBlocks, removeDelInBlocks, removeInsInBlocks,
          restoreDelInBlocks, ht.1, ht.2.1, ht.2.2.1, ht.2.2.2]
    | marker =>
      have ht := ih (by
        intro hcontra
        exact h (by simpa [widsOfBlocks, List.filterMap_cons, blockWid] using hcontra))
      refine ⟨?_, ?_, ?_, ?_⟩ <;>
        simp [acceptInsInBlocks, removeDelInBlocks, removeInsInBlocks,
          restoreDelInBlocks, ht.1, ht.2.1, ht.2.2.1, ht.2.2.2]

theorem scanParas_none {f : List Block → Option (List Block)} (ps : List Para)
    (h : ∀ p ∈ ps, f p = none) : scanParas f ps = none := by
  induction ps with
  | nil => rfl
  | cons p t ih =>
    unfold scanParas
    rw [h p (by simp), ih (fun p2 hp2 => h p2 (by simp [hp2]))]
    rfl

theorem not_mem_wids_para (d : Doc) (i : Int) (h : i ∉ allWids d) :
    ∀ p ∈ d.paras, i ∉ widsOfBlocks p := by
  intro p hp hip
  exact h (List.mem_flatten.mpr ⟨widsOfBlocks p, List.mem_map_of_mem _ hp, hip⟩)

/-- C10: for a revision id carried by no insertion or deletion envelope,
`accept_revision` and `reject_revision` return `False` and leave the
document tree completely unchanged. -/
theorem C10_unknown_revision_id_no_effect (d : Doc) (i : Int)
    (h : i ∉ allWids d) :
    accept_revision d i = (false, d) ∧ reject_revision d i = (false, d) := by
  have hp := not_mem_wids_para d i h
  have hui : scanParas (acceptInsInBlocks i) d.paras = none :=
    scanParas_none _ (fun p hpp => (scans_none_of_not_mem i p (hp p hpp)).1)
  have hud : scanParas (removeDelInBlocks i) d.paras = none :=
    scanParas_none _ (fun p hpp => (scans_none_of_not_mem i p (hp p hpp)).2.1)
  have hri : scanParas (removeInsInBlocks i) d.paras = none :=
    scanParas_none _ (fun p hpp => (scans_none_of_not_mem i p (hp p hpp)).2.2.1)
  have hrd : scanParas (restoreDelInBlocks i) d.paras = none :=
    scanParas_none _ (fun p hpp => (scans_none_of_not_mem i p (hp p hpp)).2.2.2)
  constructor
  · unfold accept_revision
    rw [hui, hud]
  · unfold reject_revision
    rw [hri, hrd]

/-- Witness for C10 at the C1 example document (envelopes with ids 1 and
2): id 7 is unknown, both calls return `false` and change nothing. -/
theorem C10_witness :
    accept_revision c1WitnessDoc 7 = (false, c1WitnessDoc) ∧
    reject_revision c1WitnessDoc 7 = (false, c1WitnessDoc) :=
  C10_unknown_revision_id_no_effect c1WitnessDoc 7 (by decide)

/- ### The external-modification guard (claim C9) -/

/-- C9: a mutating tool call (replace, delete, insert, comment,
accept/reject, save — all instances of the shared guarded pattern) on a
cached document whose on-disk mtime differs from the cached baseline
returns the external-modification error and performs no mutation at all;
`force_save` alone skips the check, saves unconditionally, and re-baselines
the cached mtime to the file's (new) current mtime. -/
theorem C9_external_modification_guard (s : ToolState) (t newMtime : Int)
    (op : Doc → Except Err Int × Doc)
    (hmt : s.fs.mtime = some t) (hne : t ≠ s.cached.mtime) :
    runMutatingTool op s = (.externalModification, s) ∧
    save_document newMtime s = (.externalModification, s) ∧
    (force_save newMtime s).1 = .success 0 ∧
    (force_save newMtime s).2.cached.mtime = newMtime ∧
    (force_save newMtime s).2.fs.mtime = some newMtime ∧
    has_external_changes (force_save newMtime s).2.fs
      (force_save newMtime s).2.cached = false := by
  have hx : has_external_changes s.fs s.cached = true := by
    unfold has_external_changes
    rw [hmt]
    simpa using hne
  refine ⟨?_, ?_, rfl, rfl, rfl, ?_⟩
  · unfold runMutatingTool
    rw [if_pos hx]
  · unfold save_document
    rw [if_pos hx]
  · unfold has_external_changes force_save
    simp

/-- Witness for C9 at a concrete state: on-disk mtime 5 differs from the
cached baseline 3; the guarded tool refuses while `force_save` succeeds
and re-baselines. -/
theorem C9_witness :
    runMutatingTool (fun dd => replace_text dd ['z'] ['y'] 0)
        ⟨⟨some 5⟩, ⟨c3WitnessDoc, ['u'], 3, false⟩⟩ =
      (.externalModification, ⟨⟨some 5⟩, ⟨c3WitnessDoc, ['u'], 3, false⟩⟩) ∧
    (force_save 6 ⟨⟨some 5⟩, ⟨c3WitnessDoc, ['u'], 3, false⟩⟩).2.cached.mtime = 6 :=
  ⟨(C9_external_modification_guard ⟨⟨some 5⟩, ⟨c3WitnessDoc, ['u'], 3, false⟩⟩ 5 6
      (fun dd => replace_text dd ['z'] ['y'] 0) rfl (by decide)).1,
   (C9_external_modification_guard ⟨⟨some 5⟩, ⟨c3WitnessDoc, ['u'], 3, false⟩⟩ 5 6
      (fun dd => replace_text dd ['z'] ['y'] 0) rfl (by decide)).2.2.2.1⟩

/-- Witness for C3: replacing a string that does not occur raises the
not-found error and leaves the tree untouched. -/
theorem C3_witness :
    (replace_text c3WitnessDoc ['q'] ['r'] 0).1 = .error .notFound ∧
    (replace_text c3WitnessDoc ['q'] ['r'] 0).2 = c3WitnessDoc :=
  ⟨rfl, C3_error_leaves_tree_unchanged.1 c3WitnessDoc ['q'] ['r'] 0 .notFound rfl⟩


/- ### Occurrence counting versus the fast leaf search (claim C6) -/

theorem occIdxs_nil (q : Str) (hq : q ≠ []) : occIdxs [] q = [] := by
  unfold occIdxs
  cases q with
  | nil => exact absurd rfl hq
  | cons c t => rfl

theorem occCount_nil (q : Str) (hq : q ≠ []) : occCount [] q = 0 := by
  unfold occCount
  rw [occIdxs_nil q hq]
  rfl

theorem occIdxs_cons (c : Char) (t q : Str) :
    occIdxs (c :: t) q =
      (if q.isPrefixOf (c :: t) then [0] else []) ++ (occIdxs t q).map Nat.succ := by
  unfold occIdxs
  rw [show ((c :: t).length + 1) = (t.length + 1) + 1 from rfl,
    List.range_succ_eq_map, List.filter_cons, List.filter_map]
  have hcomp : ((fun i => q.isPrefixOf ((c :: t).drop i)) ∘ Nat.succ) =
      (fun i => q.isPrefixOf (t.drop i)) := by
    funext i
    simp
  rw [hcomp]
  split <;> simp_all

theorem occCount_cons (c : Char) (t q : Str) :
    occCount (c :: t) q =
      (if q.isPrefixOf (c :: t) then 1 else 0) + occCount t q := by
  unfold occCount
  rw [occIdxs_cons]
  split <;> simp [Nat.add_comm]

theorem isPrefixOf_append_right (q a b : Str) (h : q.isPrefixOf a = true) :
    q.isPrefixOf (a ++ b) = true := by
  rw [List.isPrefixOf_iff_prefix] at *
  exact h.trans (List.prefix_append a b)

theorem occCount_append_ge (a b q : Str) (hq : q ≠ []) :
    occCount a q + occCount b q ≤ occCount (a ++ b) q := by
  induction a with
  | nil => rw [occCount_nil q hq, List.nil_append, Nat.zero_add]
  | cons c t ih =>
    rw [List.cons_append, occCount_cons, occCount_cons]
    have hmono : q.isPrefixOf (c :: t) = true → q.isPrefixOf (c :: (t ++ b)) = true := by
      intro h
      have := isPrefixOf_append_right q (c :: t) b h
      rwa [List.cons_append] at this
    by_cases hp : q.isPrefixOf (c :: t) = true
    · rw [if_pos hp, if_pos (hmono hp)]
      omega
    · rw [if_neg hp]
      split <;> omega

theorem occCount_pos_of_contains (v q : Str) (hq : q ≠ [])
    (h : containsSub v q = true) : 1 ≤ occCount v q := by
  unfold containsSub at h
  obtain ⟨i, hi⟩ := Option.isSome_iff_exists.mp h
  have hp := listFindSub_isPrefix v q i hi
  have hlen : i ≤ v.length := by
    by_contra hgt
    push_neg at hgt
    rw [List.drop_eq_nil_of_le (le_of_lt hgt)] at hp
    cases q with
    | nil => exact hq rfl
    | cons c t => simp [List.isPrefixOf] at hp
  have hmem : i ∈ occIdxs v q := by
    unfold occIdxs
    rw [List.mem_filter]
    exact ⟨List.mem_range.mpr (by omega), hp⟩
  unfold occCount
  exact List.length_pos.mpr (List.ne_nil_of_mem hmem)

theorem countP_contains_le_occCount_flatten (q : Str) (hq : q ≠ [])
    (vs : List Str) :
    vs.countP (fun v => containsSub v q) ≤ occCount vs.flatten q := by
  induction vs with
  | nil =>
    rw [List.flatten_nil, occCount_nil q hq]
    rfl
  | cons v t ih =>
    rw [List.flatten_cons, List.countP_cons]
    have happ := occCount_append_ge v t.flatten q hq
    by_cases hc : containsSub v q = true
    · have h1 := occCount_pos_of_contains v q hq hc
      simp only [hc, if_true]
      omega
    · rw [Bool.not_eq_true] at hc
      simp only [hc, Bool.false_eq_true, if_false]
      omega

theorem flatten_map_runText (rs : List Run) :
    (rs.map runText).flatten =
      (((rs.map (fun r => r.wts)).flatten).map (fun w => w.val)).flatten := by
  induction rs with
  | nil => rfl
  | cons r t ih =>
    rw [List.map_cons, List.flatten_cons, List.map_cons, List.flatten_cons,
      List.map_append, List.flatten_append, ← ih]
    rfl

theorem blockVisText_eq_wts (b : Block) :
    blockVisText b = ((blockWts b).map (fun w => w.val)).flatten := by
  cases b with
  | run r => rfl
  | ins e => exact flatten_map_runText e.runs
  | del e => rfl
  | marker => rfl

theorem para_fast_le (q : Str) (hq : q ≠ []) (p : Para) :
    ((p.map blockWts).flatten.countP (fun w => containsSub w.val q)) ≤
      occCount (build_text_map p).text q := by
  have htext : (build_text_map p).text = (p.map blockVisText).flatten := rfl
  rw [htext]
  clear htext
  induction p with
  | nil =>
    rw [List.map_nil, List.flatten_nil, List.map_nil, List.flatten_nil,
      occCount_nil q hq]
    rfl
  | cons b t ih =>
    rw [List.map_cons, List.map_cons, List.flatten_cons, List.flatten_cons,
      List.countP_append]
    have hb : (blockWts b).countP (fun w => containsSub w.val q) ≤
        occCount (blockVisText b) q := by
      rw [blockVisText_eq_wts]
      have h1 : ((blockWts b).map (fun w => w.val)).countP
          (fun v => containsSub v q) ≤
          occCount (((blockWts b).map (fun w => w.val)).flatten) q :=
        countP_contains_le_occCount_flatten q hq _
      rwa [List.countP_map] at h1
    have happ := occCount_append_ge (blockVisText b)
      ((t.map blockVisText).flatten) q hq
    omega

theorem doc_fast_le (d : Doc) (q : Str) (hq : q ≠ []) :
    (find_all_nodes d q).length ≤ totalOcc d q := by
  unfold find_all_nodes docWts totalOcc
  rw [← List.countP_eq_length_filter]
  induction d.paras with
  | nil => rfl
  | cons p t ih =>
    rw [List.map_cons, List.flatten_cons, List.countP_append, List.map_cons,
      List.sum_cons]
    have := para_fast_le q hq p
    omega

theorem length_allParaMatches (d : Doc) (q : Str) :
    (allParaMatches d q).length = totalOcc d q := by
  unfold allParaMatches totalOcc
  rw [List.length_flatten, List.map_map]
  apply congrArg List.sum
  apply List.map_congr_left
  intro p _
  simp [occCount]

theorem find_across_none_iff (d : Doc) (q : Str) (occ : Nat) (hq : q ≠ []) :
    find_across_boundaries d q occ = .ok none ↔ totalOcc d q ≤ occ := by
  unfold find_across_boundaries
  rw [if_neg (by simp [hq])]
  constructor
  · intro h
    have h2 : (allParaMatches d q)[occ]? = none := by
      cases hg : (allParaMatches d q)[occ]? with
      | none => rfl
      | some m => rw [hg] at h; exact absurd h (by simp)
    rw [List.getElem?_eq_none_iff, length_allParaMatches] at h2
    exact h2
  · intro h
    rw [List.getElem?_eq_none (by rw [length_allParaMatches]; exact h)]

theorem find_across_not_error (d : Doc) (q : Str) (occ : Nat) (hq : q ≠ [])
    (e : Err) : find_across_boundaries d q occ ≠ .error e := by
  unfold find_across_boundaries
  rw [if_neg (by simp [hq])]
  simp

theorem get_nth_match_err (d : Doc) (q : Str) (occ : Nat)
    (h : (find_all_nodes d q).length ≤ occ) :
    get_nth_match d q occ = .error .notFound := by
  unfold get_nth_match
  by_cases hnil : find_all_nodes d q = []
  · rw [if_pos hnil]
  · rw [if_neg hnil, List.getElem?_eq_none h]

theorem get_nth_match_ok_mem (d : Doc) (q : Str) (occ : Nat) (wt : Wt)
    (h : get_nth_match d q occ = .ok wt) : wt ∈ find_all_nodes d q := by
  unfold get_nth_match at h
  by_cases hnil : find_all_nodes d q = []
  · rw [if_pos hnil] at h
    exact absurd h (by simp)
  · rw [if_neg hnil] at h
    cases hg : (find_all_nodes d q)[occ]? with
    | none => rw [hg] at h; exact absurd h (by simp)
    | some w =>
      rw [hg] at h
      have hw : w = wt := by
        cases h
        rfl
      obtain ⟨hlt, hEq⟩ := List.getElem?_eq_some_iff.mp hg
      exact hw ▸ hEq ▸ List.getElem_mem hlt

theorem findSome?_isSome_of_mem {α β : Type} {f : α → Option β} {l : List α}
    {a : α} (ha : a ∈ l) (hf : (f a).isSome = true) :
    (l.findSome? f).isSome = true := by
  induction l with
  | nil => cases ha
  | cons x t ih =>
    rw [List.findSome?_cons]
    cases hx : f x with
    | some b => rfl
    | none =>
      rcases List.mem_cons.mp ha with rfl | hat
      · rw [hx] at hf
        exact absurd hf (by simp)
      · exact ih hat

theorem blockWtCtx_isSome_of_mem (b : Block) (w : Wt) (h : w ∈ blockWts b) :
    (blockWtCtx w.nid b).isSome = true := by
  cases b with
  | run r =>
    simp only [blockWtCtx]
    rw [if_pos ?_]
    · rfl
    · unfold runHasWt
      rw [List.any_eq_true]
      exact ⟨w, h, by simp⟩
  | ins e =>
    simp only [blockWtCtx]
    rw [Option.isSome_map']
    unfold blockWts at h
    rw [List.mem_flatten] at h
    obtain ⟨ws, hws, hw⟩ := h
    rw [List.mem_map] at hws
    obtain ⟨r, hr, hrw⟩ := hws
    rw [List.find?_isSome]
    refine ⟨r, hr, ?_⟩
    unfold runHasWt
    rw [List.any_eq_true]
    exact ⟨w, hrw ▸ hw, by simp⟩
  | del e => cases h
  | marker => cases h

theorem findWtCtx_isSome_of_mem (d : Doc) (w : Wt) (h : w ∈ docWts d) :
    (findWtCtx d w.nid).isSome = true := by
  unfold docWts at h
  rw [List.mem_flatten] at h
  obtain ⟨ws, hws, hw⟩ := h
  rw [List.mem_map] at hws
  obtain ⟨p, hp, hpw⟩ := hws
  rw [← hpw, List.mem_flatten] at hw
  obtain ⟨ws2, hws2, hw2⟩ := hw
  rw [List.mem_map] at hws2
  obtain ⟨b, hb, hbw⟩ := hws2
  unfold findWtCtx
  refine findSome?_isSome_of_mem hp ?_
  exact findSome?_isSome_of_mem hb (blockWtCtx_isSome_of_mem b w (hbw ▸ hw2))

theorem contains_of_mem_find_all (d : Doc) (q : Str) (wt : Wt)
    (h : wt ∈ find_all_nodes d q) :
    containsSub wt.val q = true ∧ wt ∈ docWts d := by
  unfold find_all_nodes at h
  rw [List.mem_filter] at h
  exact ⟨h.2, h.1⟩

theorem resolve_ok_shape (d : Doc) (q : Str) (occ : Nat) (wt : Wt)
    (hq : q ≠ []) (hg : get_nth_match d q occ = .ok wt) :
    ∀ e, resolve_simple_or_cross d q occ ≠ .err e := by
  intro e h
  obtain ⟨hcont, hmem⟩ := contains_of_mem_find_all d q wt
    (get_nth_match_ok_mem d q occ wt hg)
  have hctx := findWtCtx_isSome_of_mem d wt hmem
  unfold resolve_simple_or_cross at h
  rw [hg] at h
  dsimp only at h
  cases hc : findWtCtx d wt.nid with
  | none => rw [hc] at hctx; exact absurd hctx (by simp)
  | some ci =>
    obtain ⟨run, insAnc⟩ := ci
    rw [hc] at h
    dsimp only at h
    cases hf : listFindSub wt.val q with
    | none =>
      unfold containsSub at hcont
      rw [hf] at hcont
      exact absurd hcont (by simp)
    | some s =>
      rw [hf] at h
      dsimp only at h
      by_cases hlen : run.wts.length > 1
      · rw [if_pos hlen] at h
        cases hfa : find_across_boundaries d q occ with
        | error e2 => exact find_across_not_error d q occ hq e2 hfa
        | ok om =>
          rw [hfa] at h
          cases om <;> exact absurd h (by simp)
      · rw [if_neg hlen] at h
        exact absurd h (by simp)

theorem resolve_err_iff (d : Doc) (q : Str) (occ : Nat) (hq : q ≠ []) :
    resolve_simple_or_cross d q occ = .err .notFound ↔ totalOcc d q ≤ occ := by
  constructor
  · intro h
    cases hg : get_nth_match d q occ with
    | ok wt => exact absurd h (resolve_ok_shape d q occ wt hq hg .notFound)
    | error e0 =>
      unfold resolve_simple_or_cross at h
      rw [hg] at h
      dsimp only at h
      cases hfa : find_across_boundaries d q occ with
      | error e2 => exact absurd hfa (find_across_not_error d q occ hq e2)
      | ok om =>
        cases om with
        | none => exact (find_across_none_iff d q occ hq).mp hfa
        | some m =>
          rw [hfa] at h
          dsimp only at h
          exact absurd h (by simp)
  · intro h
    have hga : get_nth_match d q occ = .error .notFound :=
      get_nth_match_err d q occ (le_trans (doc_fast_le d q hq) h)
    unfold resolve_simple_or_cross
    rw [hga, (find_across_none_iff d q occ hq).mpr h]

theorem resolve_not_err_of_lt (d : Doc) (q : Str) (occ : Nat) (hq : q ≠ [])
    (h : occ < totalOcc d q) :
    ∀ e, resolve_simple_or_cross d q occ ≠ .err e := by
  intro e he
  cases hg : get_nth_match d q occ with
  | ok wt => exact resolve_ok_shape d q occ wt hq hg e he
  | error e0 =>
    unfold resolve_simple_or_cross at he
    rw [hg] at he
    dsimp only at he
    cases hfa : find_across_boundaries d q occ with
    | error e2 => exact find_across_not_error d q occ hq e2 hfa
    | ok om =>
      cases om with
      | none =>
        have := (find_across_none_iff d q occ hq).mp hfa
        omega
      | some m =>
        rw [hfa] at he
        dsimp only at he
        exact absurd he (by simp)

theorem resolve_insert_ok_shape (d : Doc) (q : Str) (occ : Nat) (wt : Wt)
    (hq : q ≠ []) (hg : get_nth_match d q occ = .ok wt) :
    ∀ e, resolve_insert_text d q occ ≠ .err e := by
  intro e h
  obtain ⟨hcont, hmem⟩ := contains_of_mem_find_all d q wt
    (get_nth_match_ok_mem d q occ wt hg)
  have hctx := findWtCtx_isSome_of_mem d wt hmem
  unfold resolve_insert_text at h
  rw [hg] at h
  dsimp only at h
  cases hc : findWtCtx d wt.nid with
  | none => rw [hc] at hctx; exact absurd hctx (by simp)
  | some ci =>
    obtain ⟨run, insAnc⟩ := ci
    rw [hc] at h
    dsimp only at h
    cases hf : listFindSub wt.val q with
    | none =>
      unfold containsSub at hcont
      rw [hf] at hcont
      exact absurd hcont (by simp)
    | some s =>
      rw [hf] at h
      dsimp only at h
      by_cases hins : insAnc.isSome = true
      · rw [if_pos hins] at h
        exact absurd h (by simp)
      · rw [if_neg hins] at h
        by_cases hlen : run.wts.length > 1
        · rw [if_pos hlen] at h
          cases hfa : find_across_boundaries d q occ with
          | error e2 => exact find_across_not_error d q occ hq e2 hfa
          | ok om =>
            rw [hfa] at h
            cases om <;> exact absurd h (by simp)
        · rw [if_neg hlen] at h
          exact absurd h (by simp)

theorem resolve_insert_err_iff (d : Doc) (q : Str) (occ : Nat) (hq : q ≠ []) :
    resolve_insert_text d q occ = .err .notFound ↔ totalOcc d q ≤ occ := by
  constructor
  · intro h
    cases hg : get_nth_match d q occ with
    | ok wt => exact absurd h (resolve_insert_ok_shape d q occ wt hq hg .notFound)
    | error e0 =>
      unfold resolve_insert_text at h
      rw [hg] at h
      dsimp only at h
      cases hfa : find_across_boundaries d q occ with
      | error e2 => exact absurd hfa (find_across_not_error d q occ hq e2)
      | ok om =>
        cases om with
        | none => exact (find_across_none_iff d q occ hq).mp hfa
        | some m =>
          rw [hfa] at h
          dsimp only at h
          exact absurd h (by simp)
  · intro h
    have hga : get_nth_match d q occ = .error .notFound :=
      get_nth_match_err d q occ (le_trans (doc_fast_le d q hq) h)
    unfold resolve_insert_text
    rw [hga, (find_across_none_iff d q occ hq).mpr h]

theorem resolve_insert_not_err_of_lt (d : Doc) (q : Str) (occ : Nat)
    (hq : q ≠ []) (h : occ < totalOcc d q) :
    ∀ e, resolve_insert_text d q occ ≠ .err e := by
  intro e he
  cases hg : get_nth_match d q occ with
  | ok wt => exact resolve_insert_ok_shape d q occ wt hq hg e he
  | error e0 =>
    unfold resolve_insert_text at he
    rw [hg] at he
    dsimp only at he
    cases hfa : find_across_boundaries d q occ with
    | error e2 => exact find_across_not_error d q occ hq e2 hfa
    | ok om =>
      cases om with
      | none =>
        have := (find_across_none_iff d q occ hq).mp hfa
        omega
      | some m =>
        rw [hfa] at he
        dsimp only at he
        exact absurd he (by simp)

/-- **C6** (amended).  For every non-empty query and every occurrence index,
`replace_text`, `suggest_deletion`, `insert_text_before` and
`insert_text_after` fail with the not-found error exactly when the visible
text has fewer than `occ + 1` occurrences of the query; when the occurrence
exists they return an id (or `-1`) instead of raising; and `count_matches`
reports the exact occurrence total.  The claim's stronger assertion that a
successful operation always mutates the document is refuted by the
in-insertion identity replacement counterexample below. -/
theorem C6_notfound_iff_occurrences (d : Doc) (q rw txt : Str) (occ : Nat)
    (hq : q ≠ []) :
    count_matches d q = .ok (totalOcc d q) ∧
    ((replace_text d q rw occ).1 = .error .notFound ↔ totalOcc d q ≤ occ) ∧
    ((suggest_deletion d q occ).1 = .error .notFound ↔ totalOcc d q ≤ occ) ∧
    ((insert_text_before d q txt occ).1 = .error .notFound ↔
      totalOcc d q ≤ occ) ∧
    ((insert_text_after d q txt occ).1 = .error .notFound ↔
      totalOcc d q ≤ occ) ∧
    (occ < totalOcc d q →
      (∃ k, (replace_text d q rw occ).1 = .ok k) ∧
      (∃ k, (suggest_deletion d q occ).1 = .ok k) ∧
      (∃ k, (insert_text_before d q txt occ).1 = .ok k) ∧
      (∃ k, (insert_text_after d q txt occ).1 = .ok k)) := by
  have hiff := resolve_err_iff d q occ hq
  have hiffI := resolve_insert_err_iff d q occ hq
  refine ⟨?_, ?_, ?_, ?_, ?_, ?_⟩
  · unfold count_matches
    rw [if_neg (by simp [hq])]
  · constructor
    · intro h
      unfold replace_text at h
      cases hr : resolve_simple_or_cross d q occ with
      | err e =>
        rw [hr] at h
        dsimp only at h
        injection h with h2
        exact hiff.mp (h2 ▸ hr)
      | fast wt run insAnc s =>
        rw [hr] at h
        dsimp only at h
        exact absurd h (by simp)
      | cross m =>
        rw [hr] at h
        dsimp only at h
        exact absurd h (by simp)
    · intro h
      unfold replace_text
      rw [hiff.mpr h]
  · constructor
    · intro h
      unfold suggest_deletion at h
      cases hr : resolve_simple_or_cross d q occ with
      | err e =>
        rw [hr] at h
        dsimp only at h
        injection h with h2
        exact hiff.mp (h2 ▸ hr)
      | fast wt run insAnc s =>
        rw [hr] at h
        dsimp only at h
        exact absurd h (by simp)
      | cross m =>
        rw [hr] at h
        dsimp only at h
        exact absurd h (by simp)
    · intro h
      unfold suggest_deletion
      rw [hiff.mpr h]
  · constructor
    · intro h
      unfold insert_text_before insert_text at h
      cases hr : resolve_insert_text d q occ with
      | err e =>
        rw [hr] at h
        dsimp only at h
        injection h with h2
        exact hiffI.mp (h2 ▸ hr)
      | fast wt run insAnc s =>
        rw [hr] at h
        dsimp only at h
        exact absurd h (by simp)
      | cross m =>
        rw [hr] at h
        dsimp only at h
        exact absurd h (by simp)
    · intro h
      unfold insert_text_before insert_text
      rw [hiffI.mpr h]
  · constructor
    · intro h
      unfold insert_text_after insert_text at h
      cases hr : resolve_insert_text d q occ with
      | err e =>
        rw [hr] at h
        dsimp only at h
        injection h with h2
        exact hiffI.mp (h2 ▸ hr)
      | fast wt run insAnc s =>
        rw [hr] at h
        dsimp only at h
        exact absurd h (by simp)
      | cross m =>
        rw [hr] at h
        dsimp only at h
        exact absurd h (by simp)
    · intro h
      unfold insert_text_after insert_text
      rw [hiffI.mpr h]
  · intro hlt
    have hne := resolve_not_err_of_lt d q occ hq hlt
    have hneI := resolve_insert_not_err_of_lt d q occ hq hlt
    refine ⟨?_, ?_, ?_, ?_⟩
    · unfold replace_text
      cases hr : resolve_simple_or_cross d q occ with
      | err e => exact absurd hr (hne e)
      | fast wt run insAnc s => exact ⟨_, rfl⟩
      | cross m => exact ⟨_, rfl⟩
    · unfold suggest_deletion
      cases hr : resolve_simple_or_cross d q occ with
      | err e => exact absurd hr (hne e)
      | fast wt run insAnc s => exact ⟨_, rfl⟩
      | cross m => exact ⟨_, rfl⟩
    · unfold insert_text_before insert_text
      cases hr : resolve_insert_text d q occ with
      | err e => exact absurd hr (hneI e)
      | fast wt run insAnc s => exact ⟨_, rfl⟩
      | cross m => exact ⟨_, rfl⟩
    · unfold insert_text_after insert_text
      cases hr : resolve_insert_text d q occ with
      | err e => exact absurd hr (hneI e)
      | fast wt run insAnc s => exact ⟨_, rfl⟩
      | cross m => exact ⟨_, rfl⟩

/-- A document whose single visible occurrence of `"a"` sits inside an
existing insertion envelope: replacing it by the identical text succeeds
with `-1` while leaving the document bit-for-bit unchanged. -/
def c6Doc : Doc :=
  ⟨[[Block.ins ⟨2, 1, ['a'], ['t'],
      [⟨3, none, none, none, [⟨11, ['a'], true⟩]⟩]⟩]], 100, ['u'], ['t']⟩

/-- **C6, counterexample to the mutation conjunct.**  The occurrence exists
(`totalOcc` is positive) and `replace_text` returns `-1` without raising,
but the resulting document equals the input document, so a successful
operation need not mutate the tree. -/
theorem C6_counterexample :
    0 < totalOcc c6Doc ['a'] ∧
    (replace_text c6Doc ['a'] ['a'] 0).1 = .ok (-1) ∧
    (replace_text c6Doc ['a'] ['a'] 0).2 = c6Doc :=
  ⟨by decide, rfl, by decide⟩

/-- Witness for the amended C6 theorem at a concrete document and query. -/
theorem C6_witness :
    (['a'] : Str) ≠ [] ∧
    (count_matches c6Doc ['a'] = .ok (totalOcc c6Doc ['a']) ∧
     ((replace_text c6Doc ['a'] ['b'] 0).1 = .error .notFound ↔
       totalOcc c6Doc ['a'] ≤ 0) ∧
     ((suggest_deletion c6Doc ['a'] 0).1 = .error .notFound ↔
       totalOcc c6Doc ['a'] ≤ 0) ∧
     ((insert_text_before c6Doc ['a'] ['c'] 0).1 = .error .notFound ↔
       totalOcc c6Doc ['a'] ≤ 0) ∧
     ((insert_text_after c6Doc ['a'] ['c'] 0).1 = .error .notFound ↔
       totalOcc c6Doc ['a'] ≤ 0) ∧
     (0 < totalOcc c6Doc ['a'] →
       (∃ k, (replace_text c6Doc ['a'] ['b'] 0).1 = .ok k) ∧
       (∃ k, (suggest_deletion c6Doc ['a'] 0).1 = .ok k) ∧
       (∃ k, (insert_text_before c6Doc ['a'] ['c'] 0).1 = .ok k) ∧
       (∃ k, (insert_text_after c6Doc ['a'] ['c'] 0).1 = .ok k))) :=
  ⟨by decide, C6_notfound_iff_occurrences c6Doc ['a'] ['b'] ['c'] 0 (by decide)⟩

theorem perm_insRevDesc (x : Revision) (l : List Revision) :
    List.Perm (insRevDesc x l) (x :: l) := by
  induction l with
  | nil => exact List.Perm.refl _
  | cons y ys ih =>
    unfold insRevDesc
    by_cases hlt : y.id < x.id
    · rw [if_pos hlt]
    · rw [if_neg hlt]
      exact (ih.cons y).trans (List.Perm.swap x y ys)

theorem perm_sortRevsDesc (l : List Revision) :
    List.Perm (sortRevsDesc l) l := by
  induction l with
  | nil => exact List.Perm.refl _
  | cons x xs ih =>
    have h1 : sortRevsDesc (x :: xs) = insRevDesc x (sortRevsDesc xs) := rfl
    rw [h1]
    exact (perm_insRevDesc x (sortRevsDesc xs)).trans (ih.cons x)

theorem perm_insRevAsc (x : Revision) (l : List Revision) :
    List.Perm (insRevAsc x l) (x :: l) := by
  induction l with
  | nil => exact List.Perm.refl _
  | cons y ys ih =>
    unfold insRevAsc
    by_cases hlt : x.id < y.id
    · rw [if_pos hlt]
    · rw [if_neg hlt]
      exact (ih.cons y).trans (List.Perm.swap x y ys)

theorem perm_sortRevsAsc (l : List Revision) :
    List.Perm (sortRevsAsc l) l := by
  induction l with
  | nil => exact List.Perm.refl _
  | cons x xs ih =>
    have h1 : sortRevsAsc (x :: xs) = insRevAsc x (sortRevsAsc xs) := rfl
    rw [h1]
    exact (perm_insRevAsc x (sortRevsAsc xs)).trans (ih.cons x)

theorem pairwise_insRevDesc (x : Revision) (l : List Revision)
    (h : List.Pairwise (fun r s => s.id ≤ r.id) l) :
    List.Pairwise (fun r s => s.id ≤ r.id) (insRevDesc x l) := by
  induction l with
  | nil =>
    unfold insRevDesc
    simp
  | cons y ys ih =>
    rw [List.pairwise_cons] at h
    obtain ⟨hy, hys⟩ := h
    unfold insRevDesc
    by_cases hlt : y.id < x.id
    · rw [if_pos hlt, List.pairwise_cons]
      constructor
      · intro z hz
        rcases List.mem_cons.mp hz with rfl | hz2
        · omega
        · have := hy z hz2
          omega
      · rw [List.pairwise_cons]
        exact ⟨hy, hys⟩
    · rw [if_neg hlt, List.pairwise_cons]
      constructor
      · intro z hz
        have hmem := (perm_insRevDesc x ys).mem_iff.mp hz
        rcases List.mem_cons.mp hmem with rfl | hz2
        · omega
        · exact hy z hz2
      · exact ih hys

theorem sorted_sortRevsDesc (l : List Revision) :
    List.Pairwise (fun r s => s.id ≤ r.id) (sortRevsDesc l) := by
  induction l with
  | nil => exact List.Pairwise.nil
  | cons x xs ih =>
    have h1 : sortRevsDesc (x :: xs) = insRevDesc x (sortRevsDesc xs) := rfl
    rw [h1]
    exact pairwise_insRevDesc x (sortRevsDesc xs) ih

theorem strict_sortRevsDesc (l : List Revision)
    (hnd : (l.map (fun r => r.id)).Nodup) :
    List.Pairwise (fun r s => s.id < r.id) (sortRevsDesc l) := by
  have hs := sorted_sortRevsDesc l
  have hnd2 : ((sortRevsDesc l).map (fun r => r.id)).Nodup :=
    (((perm_sortRevsDesc l).map (fun r => r.id)).nodup_iff).mpr hnd
  have hne : List.Pairwise (fun r s : Revision => r.id ≠ s.id) (sortRevsDesc l) := by
    rw [List.Nodup, List.pairwise_map] at hnd2
    exact hnd2
  exact (hs.and hne).imp (by intro a b hab; omega)

theorem wids_interleave_perm {α : Type} (xs ys zs ws : List α) :
    List.Perm ((xs ++ ys) ++ (zs ++ ws)) ((xs ++ zs) ++ (ys ++ ws)) := by
  have hmid := List.perm_append_comm_assoc ys zs ws
  simpa [List.append_assoc] using hmid.append_left xs

theorem widsOfBlocks_perm_split (bs : List Block) :
    List.Perm (widsOfBlocks bs)
      ((bs.filterMap (fun b => match b with
          | Block.ins e => some e
          | _ => none)).map (fun e => e.wid)
        ++ (bs.filterMap (fun b => match b with
          | Block.del e => some e
          | _ => none)).map (fun e => e.wid)) := by
  induction bs with
  | nil => exact List.Perm.refl _
  | cons b t ih =>
    cases b with
    | run r => simpa [widsOfBlocks, List.filterMap_cons, blockWid] using ih
    | marker => simpa [widsOfBlocks, List.filterMap_cons, blockWid] using ih
    | ins e =>
      simp only [widsOfBlocks, List.filterMap_cons, blockWid, List.map_cons,
        List.cons_append]
      exact ih.cons e.wid
    | del e =>
      simp only [widsOfBlocks, List.filterMap_cons, blockWid, List.map_cons]
      exact (ih.cons e.wid).trans (List.perm_middle).symm

theorem allWids_perm (d : Doc) :
    List.Perm (allWids d)
      ((insEnvs d).map (fun e => e.wid) ++ (delEnvs d).map (fun e => e.wid)) := by
  unfold allWids insEnvs delEnvs
  rw [List.map_flatten, List.map_flatten, List.map_map, List.map_map]
  induction d.paras with
  | nil => exact List.Perm.refl _
  | cons p t ih =>
    rw [List.map_cons, List.flatten_cons, List.map_cons, List.flatten_cons,
      List.map_cons, List.flatten_cons]
    exact ((widsOfBlocks_perm_split p).append ih).trans
      (wids_interleave_perm _ _ _ _)

theorem filter_authorMatches_none (l : List Revision) :
    l.filter (authorMatches none) = l :=
  List.filter_eq_self.mpr (fun a _ => rfl)

theorem map_id_parse (isIns : Bool) (l : List Env) :
    (l.map (parse_revision isIns)).map (fun r => r.id) = l.map (fun e => e.wid) := by
  rw [List.map_map]
  rfl

theorem nodup_ids_list_revisions (d : Doc) (a : Option Str)
    (hnd : (allWids d).Nodup) :
    ((list_revisions d a).map (fun r => r.id)).Nodup := by
  unfold list_revisions
  have hperm := perm_sortRevsAsc
    (((insEnvs d).map (parse_revision true)).filter (authorMatches a)
      ++ ((delEnvs d).map (parse_revision false)).filter (authorMatches a))
  rw [(hperm.map (fun r => r.id)).nodup_iff]
  have hsub : (((insEnvs d).map (parse_revision true)).filter (authorMatches a)
        ++ ((delEnvs d).map (parse_revision false)).filter (authorMatches a)).Sublist
      ((insEnvs d).map (parse_revision true)
        ++ (delEnvs d).map (parse_revision false)) :=
    (List.filter_sublist _).append (List.filter_sublist _)
  have hnd2 : (((insEnvs d).map (parse_revision true)
      ++ (delEnvs d).map (parse_revision false)).map (fun r => r.id)).Nodup := by
    rw [List.map_append, map_id_parse, map_id_parse]
    exact ((allWids_perm d).nodup_iff).mp hnd
  exact (hsub.map (fun r => r.id)).nodup hnd2

theorem wids_run_blocks (rs : List Run) :
    widsOfBlocks (rs.map Block.run) = [] := by
  unfold widsOfBlocks
  rw [List.filterMap_map]
  exact List.filterMap_eq_nil.mpr (fun r _ => rfl)

theorem wids_cons_ins (e : Env) (t : List Block) :
    widsOfBlocks (Block.ins e :: t) = e.wid :: widsOfBlocks t := rfl

theorem wids_cons_del (e : Env) (t : List Block) :
    widsOfBlocks (Block.del e :: t) = e.wid :: widsOfBlocks t := rfl

theorem wids_cons_run (r : Run) (t : List Block) :
    widsOfBlocks (Block.run r :: t) = widsOfBlocks t := rfl

theorem wids_cons_marker (t : List Block) :
    widsOfBlocks (Block.marker :: t) = widsOfBlocks t := rfl

theorem wids_append (bs cs : List Block) :
    widsOfBlocks (bs ++ cs) = widsOfBlocks bs ++ widsOfBlocks cs := by
  unfold widsOfBlocks
  exact List.filterMap_append bs cs blockWid

theorem acceptIns_wids (i : Int) (bs bs2 : List Block)
    (h : acceptInsInBlocks i bs = some bs2) :
    List.Perm (widsOfBlocks bs) (i :: widsOfBlocks bs2) := by
  induction bs generalizing bs2 with
  | nil => exact absurd h (by simp [acceptInsInBlocks])
  | cons b t ih =>
    cases b with
    | ins e =>
      unfold acceptInsInBlocks at h
      by_cases he : (e.wid == i) = true
      · rw [if_pos he] at h
        injection h with h2
        subst h2
        rw [wids_cons_ins, wids_append, wids_run_blocks, List.nil_append,
          (by simpa using he : e.wid = i)]
      · rw [if_neg he] at h
        cases hr : acceptInsInBlocks i t with
        | none => rw [hr] at h; exact absurd h (by simp)
        | some r =>
          rw [hr] at h
          injection h with h2
          subst h2
          rw [wids_cons_ins, wids_cons_ins]
          exact ((ih r hr).cons e.wid).trans (List.Perm.swap i e.wid _)
    | del e =>
      unfold acceptInsInBlocks at h
      cases hr : acceptInsInBlocks i t with
      | none => rw [hr] at h; exact absurd h (by simp)
      | some r =>
        rw [hr] at h
        injection h with h2
        subst h2
        rw [wids_cons_del, wids_cons_del]
        exact ((ih r hr).cons e.wid).trans (List.Perm.swap i e.wid _)
    | run rr =>
      unfold acceptInsInBlocks at h
      cases hr : acceptInsInBlocks i t with
      | none => rw [hr] at h; exact absurd h (by simp)
      | some r =>
        rw [hr] at h
        injection h with h2
        subst h2
        rw [wids_cons_run, wids_cons_run]
        exact ih r hr
    | marker =>
      unfold acceptInsInBlocks at h
      cases hr : acceptInsInBlocks i t with
      | none => rw [hr] at h; exact absurd h (by simp)
      | some r =>
        rw [hr] at h
        injection h with h2
        subst h2
        rw [wids_cons_marker, wids_cons_marker]
        exact ih r hr

theorem removeDel_wids (i : Int) (bs bs2 : List Block)
    (h : removeDelInBlocks i bs = some bs2) :
    List.Perm (widsOfBlocks bs) (i :: widsOfBlocks bs2) := by
  induction bs generalizing bs2 with
  | nil => exact absurd h (by simp [removeDelInBlocks])
  | cons b t ih =>
    cases b with
    | del e =>
      unfold removeDelInBlocks at h
      by_cases he : (e.wid == i) = true
      · rw [if_pos he] at h
        injection h with h2
        subst h2
        rw [wids_cons_del, (by simpa using he : e.wid = i)]
      · rw [if_neg he] at h
        cases hr : removeDelInBlocks i t with
        | none => rw [hr] at h; exact absurd h (by simp)
        | some r =>
          rw [hr] at h
          injection h with h2
          subst h2
          rw [wids_cons_del, wids_cons_del]
          exact ((ih r hr).cons e.wid).trans (List.Perm.swap i e.wid _)
    | ins e =>
      unfold removeDelInBlocks at h
      cases hr : removeDelInBlocks i t with
      | none => rw [hr] at h; exact absurd h (by simp)
      | some r =>
        rw [hr] at h
        injection h with h2
        subst h2
        rw [wids_cons_ins, wids_cons_ins]
        exact ((ih r hr).cons e.wid).trans (List.Perm.swap i e.wid _)
    | run rr =>
      unfold removeDelInBlocks at h
      cases hr : removeDelInBlocks i t with
      | none => rw [hr] at h; exact absurd h (by simp)
      | some r =>
        rw [hr] at h
        injection h with h2
        subst h2
        rw [wids_cons_run, wids_cons_run]
        exact ih r hr
    | marker =>
      unfold removeDelInBlocks at h
      cases hr : removeDelInBlocks i t with
      | none => rw [hr] at h; exact absurd h (by simp)
      | some r =>
        rw [hr] at h
        injection h with h2
        subst h2
        rw [wids_cons_marker, wids_cons_marker]
        exact ih r hr

theorem removeIns_wids (i : Int) (bs bs2 : List Block)
    (h : removeInsInBlocks i bs = some bs2) :
    List.Perm (widsOfBlocks bs) (i :: widsOfBlocks bs2) := by
  induction bs generalizing bs2 with
  | nil => exact absurd h (by simp [removeInsInBlocks])
  | cons b t ih =>
    cases b with
    | ins e =>
      unfold removeInsInBlocks at h
      by_cases he : (e.wid == i) = true
      · rw [if_pos he] at h
        injection h with h2
        subst h2
        rw [wids_cons_ins, (by simpa using he : e.wid = i)]
      · rw [if_neg he] at h
        cases hr : removeInsInBlocks i t with
        | none => rw [hr] at h; exact absurd h (by simp)
        | some r =>
          rw [hr] at h
          injection h with h2
          subst h2
          rw [wids_cons_ins, wids_cons_ins]
          exact ((ih r hr).cons e.wid).trans (List.Perm.swap i e.wid _)
    | del e =>
      unfold removeInsInBlocks at h
      cases hr : removeInsInBlocks i t with
      | none => rw [hr] at h; exact absurd h (by simp)
      | some r =>
        rw [hr] at h
        injection h with h2
        subst h2
        rw [wids_cons_del, wids_cons_del]
        exact ((ih r hr).cons e.wid).trans (List.Perm.swap i e.wid _)
    | run rr =>
      unfold removeInsInBlocks at h
      cases hr : removeInsInBlocks i t with
      | none => rw [hr] at h; exact absurd h (by simp)
      | some r =>
        rw [hr] at h
        injection h with h2
        subst h2
        rw [wids_cons_run, wids_cons_run]
        exact ih r hr
    | marker =>
      unfold removeInsInBlocks at h
      cases hr : removeInsInBlocks i t with
      | none => rw [hr] at h; exact absurd h (by simp)
      | some r =>
        rw [hr] at h
        injection h with h2
        subst h2
        rw [wids_cons_marker, wids_cons_marker]
        exact ih r hr

theorem restoreDel_wids (i : Int) (bs bs2 : List Block)
    (h : restoreDelInBlocks i bs = some bs2) :
    List.Perm (widsOfBlocks bs) (i :: widsOfBlocks bs2) := by
  induction bs generalizing bs2 with
  | nil => exact absurd h (by simp [restoreDelInBlocks])
  | cons b t ih =>
    cases b with
    | del e =>
      unfold restoreDelInBlocks at h
      by_cases he : (e.wid == i) = true
      · rw [if_pos he] at h
        injection h with h2
        subst h2
        rw [wids_cons_del, wids_append, wids_run_blocks, List.nil_append,
          (by simpa using he : e.wid = i)]
      · rw [if_neg he] at h
        cases hr : restoreDelInBlocks i t with
        | none => rw [hr] at h; exact absurd h (by simp)
        | some r =>
          rw [hr] at h
          injection h with h2
          subst h2
          rw [wids_cons_del, wids_cons_del]
          exact ((ih r hr).cons e.wid).trans (List.Perm.swap i e.wid _)
    | ins e =>
      unfold restoreDelInBlocks at h
      cases hr : restoreDelInBlocks i t with
      | none => rw [hr] at h; exact absurd h (by simp)
      | some r =>
        rw [hr] at h
        injection h with h2
        subst h2
        rw [wids_cons_ins, wids_cons_ins]
        exact ((ih r hr).cons e.wid).trans (List.Perm.swap i e.wid _)
    | run rr =>
      unfold restoreDelInBlocks at h
      cases hr : restoreDelInBlocks i t with
      | none => rw [hr] at h; exact absurd h (by simp)
      | some r =>
        rw [hr] at h
        injection h with h2
        subst h2
        rw [wids_cons_run, wids_cons_run]
        exact ih r hr
    | marker =>
      unfold restoreDelInBlocks at h
      cases hr : restoreDelInBlocks i t with
      | none => rw [hr] at h; exact absurd h (by simp)
      | some r =>
        rw [hr] at h
        injection h with h2
        subst h2
        rw [wids_cons_marker, wids_cons_marker]
        exact ih r hr

theorem scanParas_wids (i : Int) (f : List Block → Option (List Block))
    (hf : ∀ bs bs2, f bs = some bs2 →
      List.Perm (widsOfBlocks bs) (i :: widsOfBlocks bs2))
    (ps ps2 : List Para) (h : scanParas f ps = some ps2) :
    List.Perm ((ps.map widsOfBlocks).flatten)
      (i :: (ps2.map widsOfBlocks).flatten) := by
  induction ps generalizing ps2 with
  | nil => exact absurd h (by simp [scanParas])
  | cons p t ih =>
    unfold scanParas at h
    cases hp : f p with
    | some p2 =>
      rw [hp] at h
      injection h with h2
      subst h2
      rw [List.map_cons, List.flatten_cons, List.map_cons, List.flatten_cons]
      have := (hf p p2 hp).append_right ((t.map widsOfBlocks).flatten)
      rwa [List.cons_append] at this
    | none =>
      rw [hp] at h
      dsimp only at h
      cases hr : scanParas f t with
      | none => rw [hr] at h; exact absurd h (by simp)
      | some r =>
        rw [hr] at h
        injection h with h2
        subst h2
        rw [List.map_cons, List.flatten_cons, List.map_cons, List.flatten_cons]
        exact ((ih r hr).append_left (widsOfBlocks p)).trans List.perm_middle

theorem acceptIns_or_removeDel_some (i : Int) (bs : List Block)
    (h : i ∈ widsOfBlocks bs) :
    (acceptInsInBlocks i bs).isSome = true ∨
      (removeDelInBlocks i bs).isSome = true := by
  induction bs with
  | nil => exact absurd h (by simp [widsOfBlocks])
  | cons b t ih =>
    cases b with
    | ins e =>
      by_cases he : (e.wid == i) = true
      · left
        unfold acceptInsInBlocks
        rw [if_pos he]
        rfl
      · rw [wids_cons_ins, List.mem_cons] at h
        have ht : i ∈ widsOfBlocks t := by
          rcases h with rfl | h2
          · simp at he
          · exact h2
        rcases ih ht with h1 | h1
        · left
          unfold acceptInsInBlocks
          rw [if_neg he, Option.isSome_map']
          exact h1
        · right
          unfold removeDelInBlocks
          rw [Option.isSome_map']
          exact h1
    | del e =>
      by_cases he : (e.wid == i) = true
      · right
        unfold removeDelInBlocks
        rw [if_pos he]
        rfl
      · rw [wids_cons_del, List.mem_cons] at h
        have ht : i ∈ widsOfBlocks t := by
          rcases h with rfl | h2
          · simp at he
          · exact h2
        rcases ih ht with h1 | h1
        · left
          unfold acceptInsInBlocks
          rw [Option.isSome_map']
          exact h1
        · right
          unfold removeDelInBlocks
          rw [if_neg he, Option.isSome_map']
          exact h1
    | run r =>
      rw [wids_cons_run] at h
      rcases ih h with h1 | h1
      · left
        unfold acceptInsInBlocks
        rw [Option.isSome_map']
        exact h1
      · right
        unfold removeDelInBlocks
        rw [Option.isSome_map']
        exact h1
    | marker =>
      rw [wids_cons_marker] at h
      rcases ih h with h1 | h1
      · left
        unfold acceptInsInBlocks
        rw [Option.isSome_map']
        exact h1
      · right
        unfold removeDelInBlocks
        rw [Option.isSome_map']
        exact h1

theorem removeIns_or_restoreDel_some (i : Int) (bs : List Block)
    (h : i ∈ widsOfBlocks bs) :
    (removeInsInBlocks i bs).isSome = true ∨
      (restoreDelInBlocks i bs).isSome = true := by
  induction bs with
  | nil => exact absurd h (by simp [widsOfBlocks])
  | cons b t ih =>
    cases b with
    | ins e =>
      by_cases he : (e.wid == i) = true
      · left
        unfold removeInsInBlocks
        rw [if_pos he]
        rfl
      · rw [wids_cons_ins, List.mem_cons] at h
        have ht : i ∈ widsOfBlocks t := by
          rcases h with rfl | h2
          · simp at he
          · exact h2
        rcases ih ht with h1 | h1
        · left
          unfold removeInsInBlocks
          rw [if_neg he, Option.isSome_map']
          exact h1
        · right
          unfold restoreDelInBlocks
          rw [Option.isSome_map']
          exact h1
    | del e =>
      by_cases he : (e.wid == i) = true
      · right
        unfold restoreDelInBlocks
        rw [if_pos he]
        rfl
      · rw [wids_cons_del, List.mem_cons] at h
        have ht : i ∈ widsOfBlocks t := by
          rcases h with rfl | h2
          · simp at he
          · exact h2
        rcases ih ht with h1 | h1
        · left
          unfold removeInsInBlocks
          rw [Option.isSome_map']
          exact h1
        · right
          unfold restoreDelInBlocks
          rw [if_neg he, Option.isSome_map']
          exact h1
    | run r =>
      rw [wids_cons_run] at h
      rcases ih h with h1 | h1
      · left
        unfold removeInsInBlocks
        rw [Option.isSome_map']
        exact h1
      · right
        unfold restoreDelInBlocks
        rw [Option.isSome_map']
        exact h1
    | marker =>
      rw [wids_cons_marker] at h
      rcases ih h with h1 | h1
      · left
        unfold removeInsInBlocks
        rw [Option.isSome_map']
        exact h1
      · right
        unfold restoreDelInBlocks
        rw [Option.isSome_map']
        exact h1

theorem scans_pair_some (i : Int) (f g : List Block → Option (List Block))
    (hfg : ∀ bs, i ∈ widsOfBlocks bs →
      (f bs).isSome = true ∨ (g bs).isSome = true)
    (ps : List Para) (h : i ∈ (ps.map widsOfBlocks).flatten) :
    (scanParas f ps).isSome = true ∨ (scanParas g ps).isSome = true := by
  induction ps with
  | nil => simp at h
  | cons p t ih =>
    rw [List.map_cons, List.flatten_cons, List.mem_append] at h
    rcases h with hp | ht
    · rcases hfg p hp with h1 | h1
      · left
        unfold scanParas
        cases hfp : f p with
        | some r => rfl
        | none => rw [hfp] at h1; exact absurd h1 (by simp)
      · right
        unfold scanParas
        cases hgp : g p with
        | some r => rfl
        | none => rw [hgp] at h1; exact absurd h1 (by simp)
    · rcases ih ht with h1 | h1
      · left
        unfold scanParas
        cases hfp : f p with
        | some r => rfl
        | none =>
          dsimp only
          rw [Option.isSome_map']
          exact h1
      · right
        unfold scanParas
        cases hgp : g p with
        | some r => rfl
        | none =>
          dsimp only
          rw [Option.isSome_map']
          exact h1

theorem accept_revision_fires (d : Doc) (i : Int) (h : i ∈ allWids d) :
    (accept_revision d i).1 = true ∧
      List.Perm (allWids d) (i :: allWids (accept_revision d i).2) := by
  have hsome := scans_pair_some i (acceptInsInBlocks i) (removeDelInBlocks i)
    (fun bs hb => acceptIns_or_removeDel_some i bs hb) d.paras h
  unfold accept_revision
  cases h1 : scanParas (acceptInsInBlocks i) d.paras with
  | some ps =>
    exact ⟨rfl,
      scanParas_wids i _ (fun bs bs2 hb => acceptIns_wids i bs bs2 hb)
        d.paras ps h1⟩
  | none =>
    cases h2 : scanParas (removeDelInBlocks i) d.paras with
    | some ps =>
      exact ⟨rfl,
        scanParas_wids i _ (fun bs bs2 hb => removeDel_wids i bs bs2 hb)
          d.paras ps h2⟩
    | none =>
      rcases hsome with hs | hs
      · rw [h1] at hs; exact absurd hs (by simp)
      · rw [h2] at hs; exact absurd hs (by simp)

theorem reject_revision_fires (d : Doc) (i : Int) (h : i ∈ allWids d) :
    (reject_revision d i).1 = true ∧
      List.Perm (allWids d) (i :: allWids (reject_revision d i).2) := by
  have hsome := scans_pair_some i (removeInsInBlocks i) (restoreDelInBlocks i)
    (fun bs hb => removeIns_or_restoreDel_some i bs hb) d.paras h
  unfold reject_revision
  cases h1 : scanParas (removeInsInBlocks i) d.paras with
  | some ps =>
    exact ⟨rfl,
      scanParas_wids i _ (fun bs bs2 hb => removeIns_wids i bs bs2 hb)
        d.paras ps h1⟩
  | none =>
    cases h2 : scanParas (restoreDelInBlocks i) d.paras with
    | some ps =>
      exact ⟨rfl,
        scanParas_wids i _ (fun bs bs2 hb => restoreDel_wids i bs bs2 hb)
          d.paras ps h2⟩
    | none =>
      rcases hsome with hs | hs
      · rw [h1] at hs; exact absurd hs (by simp)
      · rw [h2] at hs; exact absurd hs (by simp)

theorem accept_fold (revs : List Revision) :
    ∀ (d : Doc) (n : Nat),
      List.Perm (allWids d) (revs.map (fun r => r.id)) →
      (revs.foldl (fun acc rev =>
        (acc.1 + (if (accept_revision acc.2 rev.id).1 then 1 else 0),
          (accept_revision acc.2 rev.id).2)) (n, d)).1 = n + revs.length ∧
      allWids ((revs.foldl (fun acc rev =>
        (acc.1 + (if (accept_revision acc.2 rev.id).1 then 1 else 0),
          (accept_revision acc.2 rev.id).2)) (n, d)).2) = [] := by
  induction revs with
  | nil =>
    intro d n hperm
    exact ⟨rfl, hperm.eq_nil⟩
  | cons rev rest ih =>
    intro d n hperm
    have hmem : rev.id ∈ allWids d :=
      hperm.mem_iff.mpr (List.mem_cons_self _ _)
    obtain ⟨hfire, hstep⟩ := accept_revision_fires d rev.id hmem
    have hperm2 : List.Perm (allWids (accept_revision d rev.id).2)
        (rest.map (fun r => r.id)) :=
      (hstep.symm.trans hperm).cons_inv
    obtain ⟨ha, hb⟩ := ih (accept_revision d rev.id).2 (n + 1) hperm2
    rw [List.foldl_cons]
    dsimp only
    rw [hfire, if_pos rfl]
    refine ⟨?_, hb⟩
    rw [ha, List.length_cons]
    omega

theorem list_revisions_of_allWids_nil (d : Doc) (h : allWids d = [])
    (a : Option Str) : list_revisions d a = [] := by
  have hperm := allWids_perm d
  rw [h] at hperm
  have h2 := hperm.symm.eq_nil
  obtain ⟨hi, hd⟩ := List.append_eq_nil.mp h2
  have hins : insEnvs d = [] := List.map_eq_nil_iff.mp hi
  have hdel : delEnvs d = [] := List.map_eq_nil_iff.mp hd
  unfold list_revisions
  rw [hins, hdel]
  rfl

theorem reject_all_of_no_revs (d : Doc) (a : Option Str)
    (h : list_revisions d a = []) : reject_all d a = (0, d) := by
  unfold reject_all
  rw [h]
  rfl

/-- **C8.**  When revision ids are unique (well-formed documents), the
bulk operations traverse the enumerated revisions in strictly descending id
order; `accept_all` with no author filter succeeds on every enumerated
revision and returns their exact count; and a subsequent `reject_all` (for
any author filter) finds nothing, returns 0, and leaves the document — in
particular its visible text — unchanged. -/
theorem C8_accept_all_then_reject_all (d : Doc) (a a2 : Option Str)
    (hnd : (allWids d).Nodup) :
    List.Pairwise (fun r s => s.id < r.id) (sortRevsDesc (list_revisions d a)) ∧
    (accept_all d none).1 = (list_revisions d none).length ∧
    reject_all (accept_all d none).2 a2 = (0, (accept_all d none).2) ∧
    get_visible_text (reject_all (accept_all d none).2 a2).2 =
      get_visible_text (accept_all d none).2 := by
  have hstrict := strict_sortRevsDesc (list_revisions d a)
    (nodup_ids_list_revisions d a hnd)
  have h0 : list_revisions d none = sortRevsAsc
      ((insEnvs d).map (parse_revision true)
        ++ (delEnvs d).map (parse_revision false)) := by
    unfold list_revisions
    rw [filter_authorMatches_none, filter_authorMatches_none]
  have hids : List.Perm
      ((sortRevsDesc (list_revisions d none)).map (fun r => r.id))
      (allWids d) := by
    have p1 := (perm_sortRevsDesc (list_revisions d none)).map (fun r => r.id)
    have p2 := (perm_sortRevsAsc ((insEnvs d).map (parse_revision true)
      ++ (delEnvs d).map (parse_revision false))).map (fun r => r.id)
    rw [h0]
    rw [h0] at p1
    refine p1.trans (p2.trans ?_)
    rw [List.map_append, map_id_parse, map_id_parse]
    exact (allWids_perm d).symm
  have hacc : accept_all d none =
      (sortRevsDesc (list_revisions d none)).foldl (fun acc rev =>
        (acc.1 + (if (accept_revision acc.2 rev.id).1 then 1 else 0),
          (accept_revision acc.2 rev.id).2)) (0, d) := rfl
  have hfold := accept_fold (sortRevsDesc (list_revisions d none)) d 0
    hids.symm
  have hlen := (perm_sortRevsDesc (list_revisions d none)).length_eq
  have hcount : (accept_all d none).1 = (list_revisions d none).length := by
    rw [hacc, hfold.1]
    omega
  have hnil : allWids (accept_all d none).2 = [] := by
    rw [hacc]
    exact hfold.2
  have hrevs := list_revisions_of_allWids_nil (accept_all d none).2 hnil a2
  have hrej := reject_all_of_no_revs (accept_all d none).2 a2 hrevs
  refine ⟨hstrict, hcount, hrej, ?_⟩
  rw [hrej]

/-- A two-revision document (one insertion, one deletion) with distinct
envelope ids, used to witness the bulk accept/reject theorem. -/
def c8Doc : Doc :=
  ⟨[[Block.ins ⟨1, 5, ['A'], ['t'],
      [⟨2, none, none, none, [⟨3, ['n'], false⟩]⟩]⟩,
     Block.del ⟨4, 6, ['B'], ['t'],
      [⟨5, none, none, none, [⟨6, ['o'], false⟩]⟩]⟩]],
   100, ['u'], ['t']⟩

/-- Witness for the C8 theorem at a concrete two-revision document. -/
theorem C8_witness :
    (allWids c8Doc).Nodup ∧
    (List.Pairwise (fun r s => s.id < r.id)
        (sortRevsDesc (list_revisions c8Doc (some ['A']))) ∧
      (accept_all c8Doc none).1 = (list_revisions c8Doc none).length ∧
      reject_all (accept_all c8Doc none).2 none =
        (0, (accept_all c8Doc none).2) ∧
      get_visible_text (reject_all (accept_all c8Doc none).2 none).2 =
        get_visible_text (accept_all c8Doc none).2) :=
  ⟨by decide, C8_accept_all_then_reject_all c8Doc (some ['A']) none (by decide)⟩

end DocxSpec
